import Mathlib

/-!
# OpenBook content-ingestion pipeline: shallow embedding and verification

This file embeds the core of the OpenBook repository (an RSS reader /
article-archival pipeline written in JavaScript) in Lean 4 and settles the
frozen specification claims against the embedded code.

Embedded source files:
* `src/rss.js`      — URL validator (`isPrivateIp`, `validateHttpUrl`),
                      `RSSReader` (`addFeed`, `fetchWithCache`,
                      `getAllArticles`, `getArticlesByDate`)
* `src/unnamed/part_001` (the queue module) — `withRetry`, the shared
                      `fetchQueue`
* `src/http.js`     — `queuedFetch` (composition of queue and retry)
* `src/collector.js`— `downloadResources` (resource localization)
* the server module — `stmtUpsertArticle` (SQL upsert semantics)

JavaScript strings are modelled as `List Char`; machine integers do not
occur (all arithmetic is on small non-negative integers, modelled as `Nat`).
Fallible operations return `Option`/`Except`.
-/

namespace OpenBook

/-! ## Shared string utilities (model of the JS string operations used) -/

/-- Model of JavaScript `s.startsWith(p)` on `List Char`: `List.isPrefixOf`.
We use `List.isPrefixOf` directly in the definitions below. -/
def strStartsWith (p s : List Char) : Bool := p.isPrefixOf s

/-- Model of JavaScript `s.includes(p)` / "the string `s` contains the
substring `p`": scan left to right for a position where `p` is a prefix. -/
def containsSeq (p : List Char) : List Char → Bool
  | [] => p.isPrefixOf ([] : List Char)
  | c :: rest => p.isPrefixOf (c :: rest) || containsSeq p rest

/-- Worker for `replaceAll`, structurally recursive on a fuel bound (the
fuel is instantiated with the text length, which suffices since every
step consumes at least one character). -/
def replaceAllF (p : Char) (ps repl : List Char) : Nat → List Char → List Char
  | _, [] => []
  | 0, s => s
  | fuel + 1, c :: rest =>
    if (p :: ps).isPrefixOf (c :: rest) then
      repl ++ replaceAllF p ps repl fuel ((c :: rest).drop (p :: ps).length)
    else
      c :: replaceAllF p ps repl fuel rest

/-- Model of JavaScript `s.split(pat).join(repl)` for a nonempty pattern
`p :: ps`: replace non-overlapping occurrences of the pattern left to
right. This is exactly the replacement idiom used in `downloadResources`
(`updatedContent.split("(url)").join("(relativePath)")`). -/
def replaceAll (p : Char) (ps repl s : List Char) : List Char :=
  replaceAllF p ps repl s.length s

theorem replaceAllF_irrel (p : Char) (ps repl : List Char) :
    ∀ (fuel₁ fuel₂ : Nat) (s : List Char), s.length ≤ fuel₁ →
      s.length ≤ fuel₂ →
      replaceAllF p ps repl fuel₁ s = replaceAllF p ps repl fuel₂ s := by
  intro fuel₁
  induction fuel₁ with
  | zero =>
    intro fuel₂ s h1 h2
    match s, h1 with
    | [], _ => cases fuel₂ <;> rfl
  | succ f ih =>
    intro fuel₂ s h1 h2
    match s with
    | [] => cases fuel₂ <;> rfl
    | c :: rest =>
      match fuel₂, h2 with
      | f₂ + 1, h2 =>
        simp only [replaceAllF]
        by_cases hp : (p :: ps).isPrefixOf (c :: rest)
        · rw [if_pos hp, if_pos hp]
          have hlen : ((c :: rest).drop (p :: ps).length).length ≤ rest.length := by
            simp only [List.length_drop, List.length_cons]
            omega
          simp only [List.length_cons] at h1 h2
          exact congrArg _ (ih f₂ _ (by omega) (by omega))
        · rw [if_neg hp, if_neg hp]
          simp only [List.length_cons] at h1 h2
          exact congrArg _ (ih f₂ rest (by omega) (by omega))

theorem replaceAll_nil (p : Char) (ps repl : List Char) :
    replaceAll p ps repl [] = [] := rfl

theorem replaceAll_cons (p : Char) (ps repl : List Char) (c : Char)
    (rest : List Char) :
    replaceAll p ps repl (c :: rest) =
      if (p :: ps).isPrefixOf (c :: rest) then
        repl ++ replaceAll p ps repl ((c :: rest).drop (p :: ps).length)
      else c :: replaceAll p ps repl rest := by
  unfold replaceAll
  show replaceAllF p ps repl (rest.length + 1) (c :: rest) = _
  simp only [replaceAllF]
  by_cases hp : (p :: ps).isPrefixOf (c :: rest)
  · rw [if_pos hp, if_pos hp]
    refine congrArg _ (replaceAllF_irrel p ps repl _ _ _ ?_ ?_) <;>
      simp only [List.length_drop, List.length_cons] <;> omega
  · rw [if_neg hp, if_neg hp]

/-! ## The retry policy (`withRetry`, queue module lines 19–35)

```js
async function withRetry(taskFn, { retries = 3, baseDelayMs = 800 } = {}) {
  let lastErr;
  for (let i = 0; i <= retries; i++) {
    try {
      return await taskFn();
    } catch (e) {
      lastErr = e;
      const status = e?.status;
      // Retry on 429/5xx/network errors
      const shouldRetry = status === 429 || (status >= 500 && status <= 599) || status == null;
      if (!shouldRetry || i === retries) break;
      const delay = baseDelayMs * Math.pow(2, i);
      await sleep(delay);
    }
  }
  throw lastErr;
}
```

A task is modelled as a function from the attempt index to an outcome; an
error carries an optional HTTP status (`none` models a network/DNS error
with no `status` property, in which case the JS comparisons
`status >= 500 && status <= 599` are false and `status == null` is true).
The run returns the result together with the list of backoff delays that
were slept, in order. -/

inductive Attempt (α : Type) where
  | ok (v : α)
  | err (status : Option Nat)
deriving DecidableEq, Repr

/-- `shouldRetry` from `withRetry`:
`status === 429 || (status >= 500 && status <= 599) || status == null`. -/
def shouldRetry (status : Option Nat) : Bool :=
  status == some 429 ||
    (match status with
     | some s => decide (500 ≤ s) && decide (s ≤ 599)
     | none => false) ||
    status == none

/-- The loop of `withRetry`, unrolled as structural recursion on the number
of retries still allowed (`fuel = retries - i`). Attempt `i` runs; on
success the value is returned; on a non-retryable error, or when the
budget is exhausted (`i === retries`, i.e. `fuel = 0`), the last error is
thrown; otherwise the loop sleeps `baseDelayMs * 2^i` and retries. -/
def withRetryGo {α : Type} (task : Nat → Attempt α) (baseDelayMs : Nat) :
    Nat → Nat → Except (Option Nat) α × List Nat
  | i, fuel =>
    match task i, fuel with
    | .ok v, _ => (.ok v, [])
    | .err st, 0 => (.error st, [])
    | .err st, fuel' + 1 =>
      if shouldRetry st then
        let rest := withRetryGo task baseDelayMs (i + 1) fuel'
        (rest.1, baseDelayMs * 2 ^ i :: rest.2)
      else
        (.error st, [])

/-- `withRetry(taskFn)` with the default options
`{ retries = 3, baseDelayMs = 800 }`. -/
def withRetry {α : Type} (task : Nat → Attempt α) (retries : Nat := 3)
    (baseDelayMs : Nat := 800) : Except (Option Nat) α × List Nat :=
  withRetryGo task baseDelayMs 0 retries

/-- The delays slept by `withRetryGo task base i fuel` are exactly
`base * 2^i, base * 2^(i+1), …` — one per performed retry. -/
theorem withRetryGo_delays {α : Type} (task : Nat → Attempt α)
    (base : Nat) : ∀ fuel i,
    (withRetryGo task base i fuel).2 =
      (List.range' i (withRetryGo task base i fuel).2.length).map
        (fun j => base * 2 ^ j) := by
  intro fuel
  induction fuel with
  | zero =>
    intro i
    unfold withRetryGo
    match h : task i with
    | .ok v => simp [h]
    | .err st => simp [h]
  | succ fuel ih =>
    intro i
    unfold withRetryGo
    match h : task i with
    | .ok v => simp [h]
    | .err st =>
      by_cases hr : shouldRetry st
      · simp only [h, hr, if_true]
        have := ih (i + 1)
        simp only [List.length_cons, List.range'_succ, List.map_cons]
        exact congrArg _ this
      · simp [h, hr]

/-- The number of retries (delays) never exceeds the fuel. -/
theorem withRetryGo_delays_length {α : Type} (task : Nat → Attempt α)
    (base : Nat) : ∀ fuel i,
    (withRetryGo task base i fuel).2.length ≤ fuel := by
  intro fuel
  induction fuel with
  | zero =>
    intro i
    unfold withRetryGo
    match h : task i with
    | .ok v => simp [h]
    | .err st => simp [h]
  | succ fuel ih =>
    intro i
    unfold withRetryGo
    match h : task i with
    | .ok v => simp [h]
    | .err st =>
      by_cases hr : shouldRetry st
      · simp only [h, hr, if_true, List.length_cons]
        exact Nat.succ_le_succ (ih (i + 1))
      · simp [h, hr]

/-- A task that fails with HTTP 503 on attempts 0, 1, 2 and succeeds on
attempt 3 (used to instantiate the retry-policy claim). -/
def task503 : Nat → Attempt Nat :=
  fun i => if i < 3 then .err (some 503) else .ok 42

/-- A task that fails with HTTP 404 on every attempt. -/
def task404 : Nat → Attempt Nat := fun _ => .err (some 404)

/-- **Claim C3.** For every task run under `withRetry` with default settings
(3 retries, base delay 800 ms): a failure is retryable iff it carries no
HTTP status, status 429, or a 5xx status; a non-retryable failure
propagates immediately with zero retries; the delays form the sequence
`800 * 2^i`, hence strictly increase; at most 3 retries are performed,
after which the last error is propagated; a task failing with 503 on the
first three attempts and succeeding on the fourth completes successfully
after exactly 3 delays. -/
theorem retry_policy_default {α : Type} :
    (∀ st : Option Nat, shouldRetry st = true ↔
        (st = none ∨ st = some 429 ∨ ∃ s, st = some s ∧ 500 ≤ s ∧ s ≤ 599)) ∧
    (∀ (task : Nat → Attempt α) (st : Option Nat),
        task 0 = .err st → shouldRetry st = false →
        withRetry task = (.error st, [])) ∧
    (∀ task : Nat → Attempt α,
        (withRetry task).2 =
          (List.range (withRetry task).2.length).map (fun i => 800 * 2 ^ i) ∧
        List.Pairwise (· < ·) (withRetry task).2 ∧
        (withRetry task).2.length ≤ 3) ∧
    (∀ task : Nat → Attempt α,
        (∀ i, i ≤ 3 → ∃ st, task i = .err st ∧ shouldRetry st = true) →
        ∃ st, task 3 = .err st ∧
          withRetry task = (.error st, [800, 1600, 3200])) ∧
    (∀ (task : Nat → Attempt α) (v : α),
        (∀ i, i < 3 → task i = .err (some 503)) → task 3 = .ok v →
        withRetry task = (.ok v, [800, 1600, 3200])) := by
  refine ⟨?_, ?_, ?_, ?_, ?_⟩
  · intro st
    match st with
    | none => simp [shouldRetry]
    | some s =>
      simp only [shouldRetry]
      constructor
      · intro h
        right
        simp only [Bool.or_eq_true, beq_iff_eq, Option.some.injEq,
          Bool.and_eq_true, decide_eq_true_eq] at h
        rcases h with (h | ⟨h1, h2⟩) | h
        · exact Or.inl (by simp [h])
        · exact Or.inr ⟨s, rfl, h1, h2⟩
        · cases h
      · rintro (h | h | ⟨t, ht, h5, h6⟩)
        · cases h
        · simp only [Option.some.injEq] at h
          simp [h]
        · cases ht
          simp only [Bool.or_eq_true, beq_iff_eq, Option.some.injEq,
            Bool.and_eq_true, decide_eq_true_eq]
          exact Or.inl (Or.inr ⟨h5, h6⟩)
  · intro task st h0 hns
    unfold withRetry withRetryGo
    simp [h0, hns]
  · intro task
    refine ⟨?_, ?_, ?_⟩
    · have := withRetryGo_delays task 800 3 0
      simpa [withRetry, List.range_eq_range'] using this
    · have hform := withRetryGo_delays task 800 3 0
      have : (withRetry task).2 =
          (List.range' 0 (withRetry task).2.length).map (fun j => 800 * 2 ^ j) := by
        simpa [withRetry] using hform
      rw [this]
      have hpw : List.Pairwise (· < ·) (List.range' 0 (withRetry task).2.length) :=
        List.pairwise_lt_range' 0 _
      exact hpw.map _ (fun a b hab => by
        have h2 : (2 : Nat) ^ a < 2 ^ b :=
          Nat.pow_lt_pow_right (by norm_num) hab
        omega)
    · simpa [withRetry] using withRetryGo_delays_length task 800 3 0
  · intro task hall
    obtain ⟨st0, h0, hr0⟩ := hall 0 (by omega)
    obtain ⟨st1, h1, hr1⟩ := hall 1 (by omega)
    obtain ⟨st2, h2, hr2⟩ := hall 2 (by omega)
    obtain ⟨st3, h3, hr3⟩ := hall 3 (by omega)
    refine ⟨st3, h3, ?_⟩
    simp [withRetry, withRetryGo, h0, hr0, h1, hr1, h2, hr2, h3]
  · intro task v hfail hok
    have h0 := hfail 0 (by omega)
    have h1 := hfail 1 (by omega)
    have h2 := hfail 2 (by omega)
    simp [withRetry, withRetryGo, h0, h1, h2, hok, shouldRetry]

/-- Witness for claim C3: the retry-policy theorem evaluated at the
concrete 503-then-success task and the concrete 404 task. -/
theorem retry_policy_default_witness :
    withRetry task503 = (.ok 42, [800, 1600, 3200]) ∧
    withRetry task404 = (.error (some 404), []) := by
  constructor
  · exact (retry_policy_default (α := Nat)).2.2.2.2 task503 42
      (fun i hi => by simp [task503, hi]) (by simp [task503])
  · exact (retry_policy_default (α := Nat)).2.1 task404 (some 404) rfl (by decide)

/-! ## The shared fetch queue and `queuedFetch` (src/http.js lines 3–14)

```js
async function queuedFetch(url, options = {}) {
  return fetchQueue.add(() => withRetry(async () => {
    const res = await fetch(url, options);
    if (!res.ok) { const err = new Error(`HTTP ${res.status}`); err.status = res.status; err.url = url; throw err; }
    return res;
  }));
}
```

The single function submitted to `fetchQueue.add` runs the **entire**
`withRetry` loop: every attempt and every backoff sleep happens inside one
queue admission, and `p-queue` holds the task's concurrency slot until the
promise returned by that function settles. We model the queue at
concurrency 1 (`OPENBOOK_FETCH_CONCURRENCY=1` is a legal configuration):
jobs are admitted FIFO and run to completion; network work is treated as
instantaneous, so a job's slot-holding time is the sum of its backoff
delays. -/

/-- The backoff delays of the single queue task submitted by `queuedFetch`
for a given task behaviour: the delays of its full `withRetry` run. -/
def queuedJobDelays {α : Type} (task : Nat → Attempt α) : List Nat :=
  (withRetry task).2

/-- Start time of job `k` in the concurrency-1 FIFO queue: the sum of the
durations (total backoff) of all earlier jobs. All jobs are enqueued at
time 0. -/
def queueStartTime (jobs : List (List Nat)) (k : Nat) : Nat :=
  ((jobs.take k).map List.sum).sum

/-- End time of job `k`: its start time plus its own total backoff. -/
def queueEndTime (jobs : List (List Nat)) (k : Nat) : Nat :=
  queueStartTime jobs k + (jobs.getD k []).sum

/-- Job `k` holds the (single) concurrency slot at time `t`: `p-queue`
frees the slot only when the submitted function's promise settles. -/
def holdsSlotAt (jobs : List (List Nat)) (k t : Nat) : Prop :=
  queueStartTime jobs k ≤ t ∧ t < queueEndTime jobs k

/-- Start of backoff sleep `j` of job `k` (the sleeps of a job are
consecutive, network work being instantaneous in the model). -/
def sleepStart (jobs : List (List Nat)) (k j : Nat) : Nat :=
  queueStartTime jobs k + ((jobs.getD k []).take j).sum

/-- Job `k` is waiting out its `j`-th retry backoff delay at time `t`. -/
def sleepingAt (jobs : List (List Nat)) (k j t : Nat) : Prop :=
  sleepStart jobs k j ≤ t ∧ t < sleepStart jobs k j + (jobs.getD k []).getD j 0

/-- A task whose every attempt succeeds immediately. -/
def taskOk : Nat → Attempt Nat := fun _ => .ok 0

/-- Two jobs submitted through `queuedFetch` at time 0: first the
503-three-times task (3 backoff sleeps), then an immediately succeeding
task. -/
def jobsEx : List (List Nat) := [queuedJobDelays task503, queuedJobDelays taskOk]

/-- **Claim C4, counterexample.** The claim states that a task waiting out
its retry backoff delay does not hold a concurrency slot. In the code,
`queuedFetch` submits the whole `withRetry` loop as one queue task, so at
time 0 job 0 is asleep in its first backoff *and* holds the only
concurrency slot, and job 1 — enqueued at time 0 — is admitted only at
time 5600, after job 0's entire retry budget has resolved. -/
theorem retries_reenter_gate_counterexample :
    sleepingAt jobsEx 0 0 0 ∧ holdsSlotAt jobsEx 0 0 ∧
      queueStartTime jobsEx 1 = 5600 := by
  refine ⟨?_, ?_, ?_⟩ <;>
    simp [sleepingAt, holdsSlotAt, sleepStart, queueStartTime, queueEndTime,
      jobsEx, queuedJobDelays, withRetry, withRetryGo, task503, taskOk,
      shouldRetry]

/-- **Claim C4 (amended).** Retries do **not** re-enter the queue's
admission gate: `queuedFetch` submits the entire retry loop as a single
queue task, so (1) a task waiting out a retry backoff delay holds its
concurrency slot throughout; (2) in the concurrency-1 FIFO model, the next
job starts exactly when the previous job's full duration — backoff
included — has elapsed; (3) the blocking is nevertheless bounded (not
indefinite): with default settings a task's total backoff is at most
800 + 1600 + 3200 = 5600 ms. -/
theorem retries_hold_admission_slot {α : Type} :
    (∀ (jobs : List (List Nat)) (k j t : Nat),
        sleepingAt jobs k j t → holdsSlotAt jobs k t) ∧
    (∀ (jobs : List (List Nat)) (k : Nat),
        queueStartTime jobs (k + 1) =
          queueStartTime jobs k + (jobs.getD k []).sum) ∧
    (∀ task : Nat → Attempt α, (queuedJobDelays task).sum ≤ 5600) := by
  refine ⟨?_, ?_, ?_⟩
  · intro jobs k j t hsleep
    obtain ⟨h1, h2⟩ := hsleep
    have hle : ((jobs.getD k []).take j).sum + (jobs.getD k []).getD j 0 ≤
        (jobs.getD k []).sum := by
      set l := jobs.getD k [] with hl
      by_cases hj : j < l.length
      · have htake : (l.take (j + 1)).sum = (l.take j).sum + l.get ⟨j, hj⟩ :=
          List.sum_take_succ l j hj
        have hget : l.getD j 0 = l.get ⟨j, hj⟩ := List.getD_eq_get l 0 hj
        have : (l.take (j + 1)).sum ≤ l.sum := by
          conv_rhs => rw [← List.take_append_drop (j + 1) l]
          rw [List.sum_append]
          exact Nat.le_add_right _ _
        omega
      · have hd0 : l.getD j 0 = 0 := by
          rw [List.getD_eq_getElem?_getD, List.getElem?_eq_none (by omega)]
          rfl
        have htake : l.take j = l := List.take_of_length_le (by omega)
        rw [hd0, htake]
        omega
    unfold sleepStart at h1 h2
    constructor
    · omega
    · unfold queueEndTime
      omega
  · intro jobs k
    unfold queueStartTime
    rw [List.take_succ, List.map_append, List.sum_append,
      List.getD_eq_getElem?_getD]
    cases jobs[k]? <;> simp
  · intro task
    have hlen := withRetryGo_delays_length task 800 3 0
    have hform := withRetryGo_delays task 800 3 0
    unfold queuedJobDelays withRetry
    set k := (withRetryGo task 800 0 3).2.length with hkdef
    have hk3 : k ≤ 3 := hlen
    rw [hform]
    interval_cases k <;> decide

/-- Witness for the amended claim C4: at the concrete two-job schedule,
job 0 holds the slot at time 0 (while asleep in its first backoff), job 1
starts at 5600, and the 503 task's total backoff is 5600 ms. -/
theorem retries_hold_admission_slot_witness :
    holdsSlotAt jobsEx 0 0 ∧
      queueStartTime jobsEx 1 = queueStartTime jobsEx 0 +
        (jobsEx.getD 0 []).sum ∧
      (queuedJobDelays task503).sum ≤ 5600 := by
  refine ⟨?_, ?_, ?_⟩
  · exact (retries_hold_admission_slot (α := Nat)).1 jobsEx 0 0 0
      (by constructor <;>
        simp [sleepStart, queueStartTime, jobsEx, queuedJobDelays, withRetry,
          withRetryGo, task503, shouldRetry])
  · exact (retries_hold_admission_slot (α := Nat)).2.1 jobsEx 0
  · exact (retries_hold_admission_slot (α := Nat)).2.2 task503

/-! ## The HTTP cache layer (`RSSReader.fetchWithCache`, src/rss.js 112–149)

```js
async fetchWithCache(url, kind) {
  const cached = this.stmtGetCache.get(normalizedUrl);
  ... conditional headers from cached.etag / cached.last_modified ...
  try {
    const res = await queuedFetch(normalizedUrl, { headers });
    const buf = Buffer.from(await res.arrayBuffer());
    const row = { url, kind, status: res.status, content_type, etag, last_modified, body: buf };
    this.stmtUpsertCache.run(row);
    return { status: res.status, body: buf, fromCache: false };
  } catch (e) {
    if (e.status === 304 && cached?.body) return { status: 304, body: cached.body, fromCache: true };
    if (cached?.body) return { status: cached.status || 200, body: cached.body, fromCache: true, error: e.message };
    throw e;
  }
}
```

The network is an oracle input: either the fetch chain succeeded
(`queuedFetch` returned and `arrayBuffer()` produced a body) or it threw an
error carrying an optional HTTP status (`queuedFetch` throws on every
non-ok status, including 304, with `err.status` set; network-level
failures carry no status). The persistent cache row for the URL is
threaded as explicit state. -/

/-- A row of the `fetch_cache` table (the fields `fetchWithCache` reads
and writes; `url` is the lookup key and `fetched_at` a timestamp, both
omitted). `body` is `none` when the BLOB is NULL. -/
structure CacheEntry where
  kind : List Char
  status : Option Nat
  content_type : Option (List Char)
  etag : Option (List Char)
  last_modified : Option (List Char)
  body : Option (List Nat)
deriving DecidableEq, Repr

/-- Outcome of the `queuedFetch` + `arrayBuffer` chain for one call. -/
inductive NetOutcome where
  | success (status : Nat) (content_type etag last_modified : Option (List Char))
      (body : List Nat)
  | failure (status : Option Nat) (msg : List Char)
deriving DecidableEq, Repr

/-- The value returned by `fetchWithCache`. -/
structure FetchResult where
  status : Nat
  body : List Nat
  fromCache : Bool
  error : Option (List Char)
deriving DecidableEq, Repr

/-- The error thrown by `fetchWithCache` when it propagates a failure. -/
structure FetchError where
  status : Option Nat
  msg : List Char
deriving DecidableEq, Repr

/-- JavaScript `x || d` on a nullable number: `null`/`undefined` and `0`
are falsy (`cached.status || 200`). -/
def jsOrNat (x : Option Nat) (d : Nat) : Nat :=
  match x with
  | some s => if s = 0 then d else s
  | none => d

/-- `RSSReader.fetchWithCache` (src/rss.js lines 112–149): returns the
result (or the propagated error) together with the resulting cache row
for the URL. -/
def fetchWithCache (cached : Option CacheEntry) (kind : List Char)
    (net : NetOutcome) : Except FetchError FetchResult × Option CacheEntry :=
  match net with
  | .success st ct et lm b =>
    (.ok ⟨st, b, false, none⟩, some ⟨kind, some st, ct, et, lm, some b⟩)
  | .failure st msg =>
    match cached with
    | some c =>
      match c.body with
      | some b =>
        if st = some 304 then (.ok ⟨304, b, true, none⟩, cached)
        else (.ok ⟨jsOrNat c.status 200, b, true, some msg⟩, cached)
      | none => (.error ⟨st, msg⟩, cached)
    | none => (.error ⟨st, msg⟩, cached)

/-- **Claim C2.** For every URL and kind, `fetchWithCache` satisfies
exactly one of three outcomes: a fresh successful response overwrites the
cache entry and is returned with `fromCache = false`; a not-modified
(status 304) failure with a prior entry holding a body returns the stored
body with `fromCache = true` without re-downloading; any other failure
with a prior body returns the stored body with `fromCache = true` and the
error surfaced alongside, and propagates when no prior entry exists. In
both failure-side outcomes the stored cache entry is unchanged: the entry
is written only by a fetch that produced a usable status and body. -/
theorem fetchWithCache_outcomes :
    (∀ (cached : Option CacheEntry) (kind : List Char) (st : Nat)
        (ct et lm : Option (List Char)) (b : List Nat),
        fetchWithCache cached kind (.success st ct et lm b) =
          (.ok ⟨st, b, false, none⟩, some ⟨kind, some st, ct, et, lm, some b⟩)) ∧
    (∀ (cached : CacheEntry) (kind msg : List Char) (b : List Nat),
        cached.body = some b →
        fetchWithCache (some cached) kind (.failure (some 304) msg) =
          (.ok ⟨304, b, true, none⟩, some cached)) ∧
    (∀ (cached : CacheEntry) (kind msg : List Char) (st : Option Nat)
        (b : List Nat),
        cached.body = some b → st ≠ some 304 →
        fetchWithCache (some cached) kind (.failure st msg) =
          (.ok ⟨jsOrNat cached.status 200, b, true, some msg⟩, some cached)) ∧
    (∀ (kind msg : List Char) (st : Option Nat),
        fetchWithCache none kind (.failure st msg) =
          (.error ⟨st, msg⟩, none)) ∧
    (∀ (cached : Option CacheEntry) (kind msg : List Char) (st : Option Nat),
        (fetchWithCache cached kind (.failure st msg)).2 = cached) := by
  refine ⟨?_, ?_, ?_, ?_, ?_⟩
  · intro cached kind st ct et lm b
    rfl
  · intro cached kind msg b hb
    simp [fetchWithCache, hb]
  · intro cached kind msg st b hb hne
    simp [fetchWithCache, hb, hne]
  · intro kind msg st
    rfl
  · intro cached kind msg st
    unfold fetchWithCache
    match cached with
    | none => rfl
    | some c =>
      match hb : c.body with
      | some b => by_cases h : st = some 304 <;> simp [hb, h]
      | none => simp [hb]

/-- Witness for claim C2: the theorem applied at concrete cache rows and
network outcomes — the 304 hit serves the stored body `[1,2,3]` from
cache, the stale-on-error fallback surfaces the error message, and the
no-entry failure propagates. -/
theorem fetchWithCache_outcomes_witness :
    fetchWithCache (some ⟨['r'], some 200, none, some ['e'], none,
        some [1, 2, 3]⟩) ['r'] (.failure (some 304) ['m']) =
      (.ok ⟨304, [1, 2, 3], true, none⟩,
        some ⟨['r'], some 200, none, some ['e'], none, some [1, 2, 3]⟩) ∧
    fetchWithCache (some ⟨['r'], some 200, none, some ['e'], none,
        some [1, 2, 3]⟩) ['r'] (.failure none ['t']) =
      (.ok ⟨200, [1, 2, 3], true, some ['t']⟩,
        some ⟨['r'], some 200, none, some ['e'], none, some [1, 2, 3]⟩) ∧
    fetchWithCache none ['r'] (.failure (some 500) ['x']) =
      (.error ⟨some 500, ['x']⟩, none) := by
  refine ⟨?_, ?_, ?_⟩
  · exact fetchWithCache_outcomes.2.1 _ ['r'] ['m'] [1, 2, 3] rfl
  · exact fetchWithCache_outcomes.2.2.1 _ ['r'] ['t'] none [1, 2, 3] rfl
      (by decide)
  · exact fetchWithCache_outcomes.2.2.2.1 ['r'] ['x'] (some 500)

/-! ## The article upsert (`stmtUpsertArticle`, server module)

```sql
INSERT INTO articles(id, feed_url, guid, link, title, author, published_at,
                     content_html, content_snippet, markdown_path, updated_at)
VALUES (...)
ON CONFLICT(id) DO UPDATE SET
  title=excluded.title, author=excluded.author,
  published_at=excluded.published_at, content_html=excluded.content_html,
  content_snippet=excluded.content_snippet,
  markdown_path=COALESCE(excluded.markdown_path, articles.markdown_path),
  updated_at=datetime('now')
```

The `articles` table is modelled as a list of rows keyed by `id`
(timestamp columns omitted). On conflict, `feed_url`, `guid` and `link`
are not in the UPDATE list and therefore keep their stored values. -/

/-- A row of the `articles` table (the columns `stmtUpsertArticle` reads
and writes). -/
structure ArticleRow where
  id : List Char
  feed_url : List Char
  guid : Option (List Char)
  link : Option (List Char)
  title : Option (List Char)
  author : Option (List Char)
  published_at : Option (List Char)
  content_html : Option (List Char)
  content_snippet : Option (List Char)
  markdown_path : Option (List Char)
deriving DecidableEq, Repr

/-- SQL `COALESCE(a, b)` on two nullable values. -/
def coalesce {α : Type} (a b : Option α) : Option α :=
  match a with
  | some x => some x
  | none => b

/-- `stmtUpsertArticle.run(r)`: insert `r`, or on an `id` conflict update
the metadata columns, taking `COALESCE(excluded.markdown_path,
articles.markdown_path)` for the markdown path. -/
def upsertArticle (table : List ArticleRow) (r : ArticleRow) : List ArticleRow :=
  if table.any (fun row => row.id == r.id) then
    table.map (fun old =>
      if old.id == r.id then
        { old with
          title := r.title
          author := r.author
          published_at := r.published_at
          content_html := r.content_html
          content_snippet := r.content_snippet
          markdown_path := coalesce r.markdown_path old.markdown_path }
      else old)
  else table ++ [r]

/-- **Claim C9.** For every article upsert whose incoming record carries no
markdown path, the stored `markdown_path` of the existing row is left
unchanged (never overwritten with null); only an upsert that supplies a
path sets or changes it; the other metadata fields are updated normally
and the insert-only columns (`feed_url`, `guid`, `link`) keep their stored
values. -/
theorem upsertArticle_preserves_markdown_path :
    ∀ (table : List ArticleRow) (r old : ArticleRow),
      old ∈ table → old.id = r.id →
      ({ old with
          title := r.title
          author := r.author
          published_at := r.published_at
          content_html := r.content_html
          content_snippet := r.content_snippet
          markdown_path := coalesce r.markdown_path old.markdown_path }
        : ArticleRow) ∈ upsertArticle table r ∧
      (r.markdown_path = none →
        coalesce r.markdown_path old.markdown_path = old.markdown_path) ∧
      (∀ p, r.markdown_path = some p →
        coalesce r.markdown_path old.markdown_path = some p) := by
  intro table r old hmem hid
  refine ⟨?_, ?_, ?_⟩
  · unfold upsertArticle
    have hany : table.any (fun row => row.id == r.id) = true :=
      List.any_eq_true.2 ⟨old, hmem, by simp [hid]⟩
    rw [if_pos hany]
    have hmaps := List.mem_map_of_mem (f := fun old' =>
      if old'.id == r.id then
        ({ old' with
          title := r.title
          author := r.author
          published_at := r.published_at
          content_html := r.content_html
          content_snippet := r.content_snippet
          markdown_path := coalesce r.markdown_path old'.markdown_path }
          : ArticleRow)
      else old') hmem
    simpa [hid] using hmaps
  · intro h
    simp [coalesce, h]
  · intro p h
    simp [coalesce, h]

/-- Witness for claim C9: a metadata-only upsert (incoming
`markdown_path = none`) against a one-row table keeps the stored path
`/a.md` while refreshing the title. -/
theorem upsertArticle_preserves_markdown_path_witness :
    (({ id := ['i'], feed_url := ['f'], guid := none, link := none,
        title := some ['n'], author := none, published_at := none,
        content_html := none, content_snippet := none,
        markdown_path := coalesce none (some ['/', 'a']) } : ArticleRow) ∈
      upsertArticle
        [{ id := ['i'], feed_url := ['f'], guid := none, link := none,
           title := some ['t'], author := none, published_at := none,
           content_html := none, content_snippet := none,
           markdown_path := some ['/', 'a'] }]
        { id := ['i'], feed_url := ['f'], guid := none, link := none,
          title := some ['n'], author := none, published_at := none,
          content_html := none, content_snippet := none,
          markdown_path := none }) ∧
    coalesce (none : Option (List Char)) (some ['/', 'a']) = some ['/', 'a'] := by
  have h := upsertArticle_preserves_markdown_path
    [{ id := ['i'], feed_url := ['f'], guid := none, link := none,
       title := some ['t'], author := none, published_at := none,
       content_html := none, content_snippet := none,
       markdown_path := some ['/', 'a'] }]
    { id := ['i'], feed_url := ['f'], guid := none, link := none,
      title := some ['n'], author := none, published_at := none,
      content_html := none, content_snippet := none,
      markdown_path := none }
    { id := ['i'], feed_url := ['f'], guid := none, link := none,
      title := some ['t'], author := none, published_at := none,
      content_html := none, content_snippet := none,
      markdown_path := some ['/', 'a'] }
    (by simp) rfl
  exact ⟨h.1, h.2.1 rfl⟩

/-! ## Aggregation (`RSSReader.getAllArticles`, src/rss.js 186–212)

```js
async getAllArticles(limit = 50) {
  const allArticles = [];
  const batchSize = 10;
  for (let i = 0; i < this.feeds.length; i += batchSize) {
    const batch = this.feeds.slice(i, i + batchSize);
    const results = await Promise.all(batch.map(feed => this.parseFeed(feed.url)));
    results.forEach((parsed, idx) => { if (!parsed) return; parsed.items.forEach(item => allArticles.push({...})); });
    if (allArticles.length >= limit * 3) break;
  }
  return allArticles
    .sort((a, b) => new Date(b.pubDate || 0) - new Date(a.pubDate || 0))
    .slice(0, limit * 2);
}
```

The per-feed parse result is an oracle input: `parseFeed` returns `null`
(`none`) on failure, else a list of items. Only the publish timestamp of
an item is tracked (in ms since the epoch; `none` when absent — the sort
treats it as epoch 0, the oldest). The JS engine sort is modelled by an
insertion sort on the same key; the claim only uses that sorting preserves
length. -/

/-- An aggregated article: only the publish timestamp matters here. -/
structure ItemRec where
  pubDate : Option Nat
deriving DecidableEq, Repr

/-- `this.feeds.slice(i, i + 10)` batching: cut the feed list into
consecutive chunks of (at most) 10. -/
def toBatches {α : Type} : List α → List (List α)
  | [] => []
  | x :: rest => ((x :: rest).take 10) :: toBatches ((x :: rest).drop 10)
termination_by l => l.length
decreasing_by
  simp only [List.length_drop, List.length_cons]
  omega

/-- The items contributed by one batch of parse results (failed parses —
`none` — contribute nothing). -/
def batchItems (batch : List (Option (List ItemRec))) : List ItemRec :=
  (batch.map (fun p => p.getD [])).join

/-- The accumulation loop: process batches in order, stopping early once
`limit * 3` items have accumulated. -/
def aggGo (limit : Nat) : List (List (Option (List ItemRec))) → List ItemRec →
    List ItemRec
  | [], acc => acc
  | b :: rest, acc =>
    let acc' := acc ++ batchItems b
    if limit * 3 ≤ acc'.length then acc' else aggGo limit rest acc'

/-- Sort key: `new Date(x.pubDate || 0)` — a missing timestamp sorts as the
epoch, i.e. the oldest. -/
def pubKey (a : ItemRec) : Nat := a.pubDate.getD 0

/-- Insert into a list sorted descending by `pubKey`. -/
def insertDesc (x : ItemRec) : List ItemRec → List ItemRec
  | [] => [x]
  | y :: ys => if pubKey y < pubKey x then x :: y :: ys else y :: insertDesc x ys

/-- Sort descending by `pubKey` (insertion sort). -/
def sortDesc : List ItemRec → List ItemRec
  | [] => []
  | x :: xs => insertDesc x (sortDesc xs)

theorem length_insertDesc (x : ItemRec) (l : List ItemRec) :
    (insertDesc x l).length = l.length + 1 := by
  induction l with
  | nil => rfl
  | cons y ys ih =>
    unfold insertDesc
    by_cases h : pubKey y < pubKey x <;> simp [h, ih]

theorem length_sortDesc (l : List ItemRec) :
    (sortDesc l).length = l.length := by
  induction l with
  | nil => rfl
  | cons x xs ih =>
    unfold sortDesc
    rw [length_insertDesc, ih, List.length_cons]

/-- `RSSReader.getAllArticles(limit)`, as a function of the per-feed parse
results. -/
def getAllArticles (feeds : List (Option (List ItemRec))) (limit : Nat := 50) :
    List ItemRec :=
  (sortDesc (aggGo limit (toBatches feeds) [])).take (limit * 2)

/-- **Claim C10.** For every limit and feed configuration,
`getAllArticles(limit)` returns at most `2 * limit` items — aggregation
stops once `3 * limit` items have accumulated (or feeds are exhausted) and
the sorted result is truncated to `2 * limit` — and the returned list can
indeed exceed the nominal limit. -/
theorem getAllArticles_length_bound :
    (∀ (feeds : List (Option (List ItemRec))) (limit : Nat),
        (getAllArticles feeds limit).length ≤ 2 * limit) ∧
    (∃ (feeds : List (Option (List ItemRec))) (limit : Nat),
        limit < (getAllArticles feeds limit).length) := by
  constructor
  · intro feeds limit
    unfold getAllArticles
    calc ((sortDesc (aggGo limit (toBatches feeds) [])).take (limit * 2)).length
        ≤ limit * 2 := List.length_take_le _ _
      _ = 2 * limit := Nat.mul_comm _ _
  · refine ⟨[some [⟨none⟩, ⟨none⟩, ⟨none⟩]], 1, ?_⟩
    have hb : toBatches [some [(⟨none⟩ : ItemRec), ⟨none⟩, ⟨none⟩]] =
        [[some [(⟨none⟩ : ItemRec), ⟨none⟩, ⟨none⟩]]] := by
      rw [toBatches.eq_def]
      norm_num
      rw [toBatches.eq_def]
    simp [getAllArticles, hb, aggGo, batchItems, sortDesc, insertDesc]

/-! ## Feed registration (`RSSReader.addFeed`, src/rss.js 99–110)

```js
async addFeed(url, name) {
  const validated = await validateHttpUrl(url);
  if (!validated.ok) throw new Error(`Feed URL rejected: ${validated.reason}`);
  const normalizedUrl = new URL(url).toString();
  const exists = this.feeds.some(f => f.url === normalizedUrl);
  if (exists) return false;
  this.feeds.push({ url: normalizedUrl, name: (name || normalizedUrl).trim() });
  this.stmtUpsertFeed.run(normalizedUrl, (name || '').trim());
  return true;
}
```

The validator verdict and the WHATWG-normalized URL are taken as inputs
(the validator itself is embedded separately for claim C1). State: the
in-memory `this.feeds` array and the `feeds` DB table (url, name). -/

/-- JS white space for `trim` and the regex class `\s` (the common
members; the exotic Unicode spaces do not occur in the claims). -/
def isSpaceChar (c : Char) : Bool :=
  c = ' ' || c = '\t' || c = '\n' || c = '\r'

/-- JavaScript `s.trim()`. -/
def jsTrim (s : List Char) : List Char :=
  ((s.dropWhile isSpaceChar).reverse.dropWhile isSpaceChar).reverse

/-- JavaScript `x || d` on a nullable string: `null`/`undefined` and `''`
are falsy. -/
def jsOrStr (x : Option (List Char)) (d : List Char) : List Char :=
  match x with
  | some s => if s = [] then d else s
  | none => d

/-- An in-memory feed record (`this.feeds` element). -/
structure FeedRec where
  url : List Char
  name : List Char
deriving DecidableEq, Repr

/-- The reader's feed state: the in-memory array and the `feeds` table. -/
structure ReaderFeeds where
  feeds : List FeedRec
  dbFeeds : List (List Char × List Char)
deriving DecidableEq, Repr

/-- `stmtUpsertFeed`: `INSERT INTO feeds(url, name) VALUES (?, ?) ON
CONFLICT(url) DO UPDATE SET name=excluded.name`. -/
def upsertFeedDb (db : List (List Char × List Char)) (url name : List Char) :
    List (List Char × List Char) :=
  if db.any (fun p => p.1 == url) then
    db.map (fun p => if p.1 == url then (url, name) else p)
  else db ++ [(url, name)]

/-- `RSSReader.addFeed`, as a function of the validator verdict and the
normalized URL. `.error` models the thrown `Feed URL rejected` error. -/
def addFeed (st : ReaderFeeds) (validateOk : Bool) (normalizedUrl : List Char)
    (name : Option (List Char)) : Except Unit (Bool × ReaderFeeds) :=
  if validateOk = false then .error () else
  if st.feeds.any (fun f => f.url == normalizedUrl) then .ok (false, st)
  else .ok (true,
    { feeds := st.feeds ++
        [⟨normalizedUrl, jsTrim (jsOrStr name normalizedUrl)⟩]
      dbFeeds := upsertFeedDb st.dbFeeds normalizedUrl
        (jsTrim (jsOrStr name [])) })

/-- **Claim C8, counterexample.** The claim states that on every re-add of
an already present URL "only the stored display name is updated". In the
code the `exists` check returns `false` *before* any update: re-adding
URL `u` with the new name `n` to a state whose stored name is `o` returns
`false` and leaves both the in-memory and the DB name at `o`. -/
theorem addFeed_readd_counterexample :
    addFeed ⟨[⟨['u'], ['o']⟩], [(['u'], ['o'])]⟩ true ['u'] (some ['n']) =
      .ok (false, ⟨[⟨['u'], ['o']⟩], [(['u'], ['o'])]⟩) := by
  rfl

/-- **Claim C8 (amended).** `addFeed` returns a boolean indicating whether
the feed was added and throws on validator failure; the first successful
add of a URL appends one feed record (in memory, and upserts the DB row);
re-adding a URL already in the in-memory feed set returns `false` and
changes **nothing** (in particular the stored display name is *not*
updated); the feed set gains no duplicate entry and no feed is ever
removed. -/
theorem addFeed_spec :
    (∀ (st : ReaderFeeds) (url : List Char) (name : Option (List Char)),
        addFeed st false url name = .error ()) ∧
    (∀ (st : ReaderFeeds) (url : List Char) (name : Option (List Char)),
        st.feeds.any (fun f => f.url == url) = true →
        addFeed st true url name = .ok (false, st)) ∧
    (∀ (st : ReaderFeeds) (url : List Char) (name : Option (List Char)),
        st.feeds.any (fun f => f.url == url) = false →
        addFeed st true url name = .ok (true,
          { feeds := st.feeds ++ [⟨url, jsTrim (jsOrStr name url)⟩]
            dbFeeds := upsertFeedDb st.dbFeeds url (jsTrim (jsOrStr name [])) })) ∧
    (∀ (st st' : ReaderFeeds) (ok : Bool) (v : Bool) (url : List Char)
        (name : Option (List Char)),
        addFeed st v url name = .ok (ok, st') →
        st.feeds.isPrefixOf st'.feeds = true) ∧
    (∀ (st st' : ReaderFeeds) (ok : Bool) (v : Bool) (url : List Char)
        (name : Option (List Char)),
        addFeed st v url name = .ok (ok, st') →
        (st.feeds.map FeedRec.url).Nodup → (st'.feeds.map FeedRec.url).Nodup) := by
  refine ⟨?_, ?_, ?_, ?_, ?_⟩
  · intro st url name
    rfl
  · intro st url name h
    simp [addFeed, h]
  · intro st url name h
    simp [addFeed, h]
  · intro st st' ok v url name h
    unfold addFeed at h
    by_cases hv : v = false
    · simp [hv] at h
    · rw [if_neg hv] at h
      by_cases he : st.feeds.any (fun f => f.url == url) = true
      · rw [if_pos he] at h
        cases h
        exact List.isPrefixOf_iff_prefix.2 (List.prefix_refl _)
      · rw [if_neg he] at h
        cases h
        exact List.isPrefixOf_iff_prefix.2 ⟨_, rfl⟩
  · intro st st' ok v url name h hnd
    unfold addFeed at h
    by_cases hv : v = false
    · simp [hv] at h
    · rw [if_neg hv] at h
      by_cases he : st.feeds.any (fun f => f.url == url) = true
      · rw [if_pos he] at h
        cases h
        exact hnd
      · rw [if_neg he] at h
        cases h
        have hnotin : url ∉ st.feeds.map FeedRec.url := by
          intro hmem
          obtain ⟨f, hf, hfu⟩ := List.mem_map.1 hmem
          have : st.feeds.any (fun f => f.url == url) = true :=
            List.any_eq_true.2 ⟨f, hf, by simp [hfu]⟩
          exact absurd this (by simpa using he)
        simp only [List.map_append, List.map_cons, List.map_nil]
        rw [List.nodup_append]
        refine ⟨hnd, List.nodup_singleton _, ?_⟩
        intro a ha hb
        simp only [List.mem_singleton] at hb
        subst hb
        exact hnotin ha

/-- Witness for the amended claim C8: a re-add of the present URL `u`
returns `false` with the state unchanged, and a first add of the fresh
URL `v` returns `true` and appends the record. -/
theorem addFeed_spec_witness :
    addFeed ⟨[⟨['u'], ['o']⟩], [(['u'], ['o'])]⟩ true ['u'] (some ['n']) =
      .ok (false, ⟨[⟨['u'], ['o']⟩], [(['u'], ['o'])]⟩) ∧
    addFeed ⟨[⟨['u'], ['o']⟩], [(['u'], ['o'])]⟩ true ['v'] (some ['n']) =
      .ok (true,
        { feeds := [⟨['u'], ['o']⟩] ++ [⟨['v'], jsTrim (jsOrStr (some ['n']) ['v'])⟩]
          dbFeeds := upsertFeedDb [(['u'], ['o'])] ['v']
            (jsTrim (jsOrStr (some ['n']) [])) }) := by
  constructor
  · exact addFeed_spec.2.1 ⟨[⟨['u'], ['o']⟩], [(['u'], ['o'])]⟩ ['u']
      (some ['n']) (by decide)
  · exact addFeed_spec.2.2.1 ⟨[⟨['u'], ['o']⟩], [(['u'], ['o'])]⟩ ['v']
      (some ['n']) (by decide)

/-! ## Date filtering (`RSSReader.getArticlesByDate`, src/rss.js 214–229)

```js
async getArticlesByDate(date, daysWindow = 1) {
  const targetDate = new Date(date); targetDate.setHours(0, 0, 0, 0);
  const endDate = new Date(targetDate);
  endDate.setDate(endDate.getDate() + daysWindow);
  endDate.setHours(23, 59, 59, 999);
  const allArticles = await this.getAllArticles(100);
  return allArticles.filter(article => {
    if (!article.pubDate) return false;
    const articleDate = new Date(article.pubDate);
    return articleDate >= targetDate && articleDate <= endDate;
  });
}
```

Instants are milliseconds since the Unix epoch (`Nat`). `setHours(0,0,0,0)`
/ `setDate(+w)` / `setHours(23,59,59,999)` operate on the calendar fields
of the process's local time zone; the model fixes that zone at UTC, the
zone in which the claim's examples are stated (days then align with
`86400000`-ms blocks, with no DST). A missing or unparseable `pubDate`
is `none` (`new Date(undefined)` is `NaN` and `NaN` comparisons are
false, so such articles are dropped either way). The filtered list is
whatever `getAllArticles(100)` returned, taken here as the input. -/

def msPerDay : Nat := 86400000

/-- `setHours(0, 0, 0, 0)` at UTC: floor to the start of the day. -/
def startOfDay (t : Nat) : Nat := t / msPerDay * msPerDay

/-- `RSSReader.getArticlesByDate(date, daysWindow = 1)` applied to the
aggregated article list. `endDate` is the target day start plus
`daysWindow` days, then moved to 23:59:59.999 of *that* day — i.e. the
window spans `daysWindow + 1` calendar days. -/
def getArticlesByDate (articles : List ItemRec) (dateMs : Nat)
    (daysWindow : Nat := 1) : List ItemRec :=
  let targetDate := startOfDay dateMs
  let endDate := targetDate + daysWindow * msPerDay + (msPerDay - 1)
  articles.filter (fun a =>
    match a.pubDate with
    | none => false
    | some t => decide (targetDate ≤ t) && decide (t ≤ endDate))

theorem mem_getArticlesByDate (arts : List ItemRec) (dateMs w : Nat)
    (a : ItemRec) :
    a ∈ getArticlesByDate arts dateMs w ↔
      a ∈ arts ∧ ∃ t, a.pubDate = some t ∧
        startOfDay dateMs ≤ t ∧
        t ≤ startOfDay dateMs + w * msPerDay + (msPerDay - 1) := by
  unfold getArticlesByDate
  rw [List.mem_filter]
  refine and_congr_right fun _ => ?_
  match h : a.pubDate with
  | none => simp [h]
  | some t => simp [h]

theorem startOfDay_day_start (d : Nat) :
    startOfDay (d * msPerDay) = d * msPerDay := by
  unfold startOfDay msPerDay
  omega

/-- **Claim C7, counterexample.** The claim states that an article
timestamped 01:00 UTC on day `D` is *excluded* when filtering for day
`D − 1`. In the code the default window runs through 23:59:59.999 of
`date + daysWindow`, i.e. two calendar days: filtering for day 0 returns
the article timestamped 01:00 UTC of day 1. -/
theorem getArticlesByDate_counterexample :
    (⟨some (msPerDay + 3600000)⟩ : ItemRec) ∈
      getArticlesByDate [⟨some (msPerDay + 3600000)⟩] 0 1 := by
  refine (mem_getArticlesByDate _ _ _ _).2
    ⟨List.mem_singleton_self _, msPerDay + 3600000, rfl, ?_, ?_⟩ <;>
    unfold startOfDay msPerDay <;> omega

/-- **Claim C7 (amended).** `getArticlesByDate(date, windowDays = 1)`
returns exactly the articles (among the aggregated input) whose publish
timestamp lies in the inclusive window
`[date 00:00:00.000, (date + windowDays) 23:59:59.999]` — a window of
`windowDays + 1` calendar days — with all comparisons in one consistent
zone (UTC in the model); articles with no publish timestamp are excluded.
An article timestamped 23:00 UTC on day `D` is included when filtering
for day `D` and excluded when filtering for day `D + 1`; an article
timestamped 01:00 UTC on day `D` is included for day `D` **and also for
day `D − 1`** (not excluded, since the default window extends through the
end of `date + 1`). -/
theorem getArticlesByDate_window :
    (∀ (arts : List ItemRec) (dateMs w : Nat) (a : ItemRec),
        a ∈ getArticlesByDate arts dateMs w ↔
          a ∈ arts ∧ ∃ t, a.pubDate = some t ∧
            startOfDay dateMs ≤ t ∧
            t ≤ startOfDay dateMs + w * msPerDay + (msPerDay - 1)) ∧
    (∀ (arts : List ItemRec) (dateMs w : Nat),
        (⟨none⟩ : ItemRec) ∉ getArticlesByDate arts dateMs w) ∧
    (∀ d : Nat,
        (⟨some (d * msPerDay + 82800000)⟩ : ItemRec) ∈
          getArticlesByDate [⟨some (d * msPerDay + 82800000)⟩]
            (d * msPerDay) 1) ∧
    (∀ d : Nat,
        (⟨some (d * msPerDay + 82800000)⟩ : ItemRec) ∉
          getArticlesByDate [⟨some (d * msPerDay + 82800000)⟩]
            ((d + 1) * msPerDay) 1) ∧
    (∀ d : Nat,
        (⟨some (d * msPerDay + 3600000)⟩ : ItemRec) ∈
          getArticlesByDate [⟨some (d * msPerDay + 3600000)⟩]
            (d * msPerDay) 1) ∧
    (∀ d : Nat, 1 ≤ d →
        (⟨some (d * msPerDay + 3600000)⟩ : ItemRec) ∈
          getArticlesByDate [⟨some (d * msPerDay + 3600000)⟩]
            ((d - 1) * msPerDay) 1) := by
  refine ⟨mem_getArticlesByDate, ?_, ?_, ?_, ?_, ?_⟩
  · intro arts dateMs w h
    rcases (mem_getArticlesByDate arts dateMs w _).1 h with ⟨-, t, ht, -⟩
    cases ht
  · intro d
    refine (mem_getArticlesByDate _ _ _ _).2
      ⟨List.mem_singleton_self _, d * msPerDay + 82800000, rfl, ?_, ?_⟩ <;>
      rw [startOfDay_day_start] <;> unfold msPerDay <;> omega
  · intro d h
    rcases (mem_getArticlesByDate _ _ _ _).1 h with ⟨-, t, ht, hlo, -⟩
    injection ht with ht
    subst ht
    rw [startOfDay_day_start] at hlo
    unfold msPerDay at hlo
    omega
  · intro d
    refine (mem_getArticlesByDate _ _ _ _).2
      ⟨List.mem_singleton_self _, d * msPerDay + 3600000, rfl, ?_, ?_⟩ <;>
      rw [startOfDay_day_start] <;> unfold msPerDay <;> omega
  · intro d hd
    refine (mem_getArticlesByDate _ _ _ _).2
      ⟨List.mem_singleton_self _, d * msPerDay + 3600000, rfl, ?_, ?_⟩ <;>
      rw [startOfDay_day_start] <;> unfold msPerDay <;> omega

/-- Witness for the amended claim C7: the theorem applied at day `D = 1`
filtering for day 0 — the article timestamped 01:00 UTC on day 1 is
returned. -/
theorem getArticlesByDate_window_witness :
    (⟨some (1 * msPerDay + 3600000)⟩ : ItemRec) ∈
      getArticlesByDate [⟨some (1 * msPerDay + 3600000)⟩]
        ((1 - 1) * msPerDay) 1 :=
  getArticlesByDate_window.2.2.2.2.2 1 (by omega)

/-! ## URL validation (`isPrivateIp` / `validateHttpUrl`, src/rss.js 16–66)

```js
function isPrivateIp(ip) {
  if (net.isIP(ip) === 4) {
    const parts = ip.split('.').map(n => parseInt(n, 10));
    const [a, b] = parts;
    if (a === 10) return true;
    if (a === 127) return true;
    if (a === 169 && b === 254) return true;
    if (a === 172 && b >= 16 && b <= 31) return true;
    if (a === 192 && b === 168) return true;
    if (a === 0) return true;
    return false;
  }
  if (net.isIP(ip) === 6) {
    const v = ip.toLowerCase();
    if (v === '::1') return true;
    if (v.startsWith('fe80:')) return true;
    if (v.startsWith('fc') || v.startsWith('fd')) return true;
    return false;
  }
  return true;
}
```

`dns.lookup` hands `isPrivateIp` the address *text* in canonical form
(RFC 5952: lowercase hex groups without leading zeros, the leftmost
longest run of ≥ 2 zero groups compressed to `::`). We model an address
by its numeric parts and embed the canonical rendering explicitly
(`renderIPv6`), so that the v6 branch performs exactly the string tests
of the source on exactly the text the source receives. The
`net.isIP(ip) === 0` fallback branch (`return true`) is unreachable for
`dns.lookup` results and is not modelled. -/

/-- An IP address as produced by `dns.lookup`: four IPv4 octets or eight
16-bit IPv6 groups. -/
inductive IpAddr where
  | v4 (a b c d : Nat)
  | v6 (groups : List Nat)
deriving DecidableEq, Repr

/-- Validity of an address: octets below 256; exactly eight groups below
2^16. -/
def IpAddr.valid : IpAddr → Prop
  | .v4 a b c d => a < 256 ∧ b < 256 ∧ c < 256 ∧ d < 256
  | .v6 gs => gs.length = 8 ∧ ∀ g ∈ gs, g < 65536

/-- One lowercase hex digit (`0`–`9`, `a`–`f`). -/
def hexDigit (n : Nat) : Char :=
  if n < 10 then Char.ofNat (48 + n) else Char.ofNat (87 + n)

/-- Lowercase hex text of one 16-bit group, without leading zeros. -/
def hexChars (n : Nat) : List Char :=
  if n < 16 then [hexDigit n]
  else if n < 256 then [hexDigit (n / 16), hexDigit (n % 16)]
  else if n < 4096 then
    [hexDigit (n / 256), hexDigit (n / 16 % 16), hexDigit (n % 16)]
  else
    [hexDigit (n / 4096), hexDigit (n / 256 % 16), hexDigit (n / 16 % 16),
      hexDigit (n % 16)]

/-- Join group texts with `':'`. -/
def joinColon : List (List Char) → List Char
  | [] => []
  | [x] => x
  | x :: y :: rest => x ++ ':' :: joinColon (y :: rest)

/-- Length of the run of zero groups at the head of the list. -/
def leadingZeros : List Nat → Nat
  | 0 :: rest => leadingZeros rest + 1
  | _ => 0

/-- The zero run compressed to `::` (RFC 5952): the leftmost longest run
of at least two zero groups, as `(start, length)`, scanning positions from
index `i`; `none` when no such run exists. -/
def bestZeroRun : List Nat → Nat → Option (Nat × Nat)
  | [], _ => none
  | g :: rest, i =>
    match bestZeroRun rest (i + 1) with
    | some (bs, bl) =>
      if 2 ≤ leadingZeros (g :: rest) ∧ bl ≤ leadingZeros (g :: rest) then
        some (i, leadingZeros (g :: rest))
      else some (bs, bl)
    | none =>
      if 2 ≤ leadingZeros (g :: rest) then some (i, leadingZeros (g :: rest))
      else none

/-- Canonical lowercase text of an IPv6 address given by its eight groups
(the format in which `dns.lookup` reports addresses). -/
def renderIPv6 (gs : List Nat) : List Char :=
  match bestZeroRun gs 0 with
  | none => joinColon (gs.map hexChars)
  | some (p, len) =>
    joinColon ((gs.take p).map hexChars) ++ ':' :: ':' ::
      joinColon ((gs.drop (p + len)).map hexChars)

/-- `isPrivateIp` (src/rss.js lines 16–38). The v4 branch destructures
only the first two dotted parts; the v6 branch lowercases the text and
performs the three string tests of the source (`renderIPv6` already
produces lowercase text). -/
def isPrivateIp : IpAddr → Bool
  | .v4 a b _ _ =>
    if a = 10 then true
    else if a = 127 then true
    else if a = 169 ∧ b = 254 then true
    else if a = 172 ∧ 16 ≤ b ∧ b ≤ 31 then true
    else if a = 192 ∧ b = 168 then true
    else if a = 0 then true
    else false
  | .v6 gs =>
    let v := renderIPv6 gs
    if v = [':', ':', '1'] then true
    else if ['f', 'e', '8', '0', ':'].isPrefixOf v then true
    else if ['f', 'c'].isPrefixOf v || ['f', 'd'].isPrefixOf v then true
    else false

/-- The private/loopback/link-local ranges exactly as the specification
lists them: IPv4 10/8, 127/8, 169.254/16, 172.16/12, 192.168/16,
0.0.0.0/8; IPv6 `::1`, `fe80::/10` (first group `0xfe80`–`0xfebf`),
`fc00::/7` (first group `0xfc00`–`0xfdff`). -/
def specPrivateIp : IpAddr → Bool
  | .v4 a b _ _ =>
    a == 10 || a == 127 || (a == 169 && b == 254) ||
      (a == 172 && decide (16 ≤ b) && decide (b ≤ 31)) ||
      (a == 192 && b == 168) || a == 0
  | .v6 gs =>
    gs == [0, 0, 0, 0, 0, 0, 0, 1] ||
      (decide (0xfe80 ≤ gs.headD 0) && decide (gs.headD 0 ≤ 0xfebf)) ||
      (decide (0xfc00 ≤ gs.headD 0) && decide (gs.headD 0 ≤ 0xfdff))

/-- What the code's textual IPv6 tests mean numerically on the canonical
text: `::1`; first group exactly `0xfe80` (the `fe80:` prefix covers
fe80::/16, not fe80::/10); first group whose no-leading-zero hex text
begins with `fc` or `fd` (a superset of fc00::/7 that additionally
catches `0xfc`, `0xfd`, and `0xfc0`–`0xfdf`). -/
def amendedPrivateIp : IpAddr → Bool
  | .v4 a b c d => specPrivateIp (.v4 a b c d)
  | .v6 gs =>
    gs == [0, 0, 0, 0, 0, 0, 0, 1] ||
      gs.headD 0 == 0xfe80 ||
      (gs.headD 0 == 0xfc || gs.headD 0 == 0xfd ||
        (decide (0xfc0 ≤ gs.headD 0) && decide (gs.headD 0 ≤ 0xfdf)) ||
        (decide (0xfc00 ≤ gs.headD 0) && decide (gs.headD 0 ≤ 0xfdff)))

/-- Outcome of `new URL(url)` plus protocol inspection: `malformed`
models the constructor throwing; otherwise the parsed protocol (with its
trailing colon, e.g. `http:`) and hostname. -/
inductive UrlParse where
  | malformed
  | parsed (protocol : List Char) (hostname : List Char)
deriving DecidableEq, Repr

/-- Outcome of `dns.lookup(hostname, { all: true })`. -/
inductive DnsResult where
  | failure
  | success (addrs : List IpAddr)
deriving DecidableEq, Repr

/-- Which rejection fired (standing in for the `reason` strings). -/
inductive ValidateReason where
  | invalidUrl
  | badScheme
  | privateBlocked
  | dnsFailed
  | empty
deriving DecidableEq, Repr

/-- The `{ ok, reason }` object returned by `validateHttpUrl`. -/
structure ValidateResult where
  ok : Bool
  reason : ValidateReason
deriving DecidableEq, Repr

/-- `validateHttpUrl` (src/rss.js lines 40–66), as a function of the URL
parse outcome, the `OPENBOOK_ALLOW_PRIVATE_FEEDS` override, and the DNS
result for the hostname. -/
def validateHttpUrl (u : UrlParse) (allowPrivate : Bool) (dns : DnsResult) :
    ValidateResult :=
  match u with
  | .malformed => ⟨false, .invalidUrl⟩
  | .parsed protocol _ =>
    if !(protocol == ['h', 't', 't', 'p', ':'] ||
         protocol == ['h', 't', 't', 'p', 's', ':']) then
      ⟨false, .badScheme⟩
    else if allowPrivate then ⟨true, .empty⟩
    else
      match dns with
      | .failure => ⟨false, .dnsFailed⟩
      | .success addrs =>
        if addrs.any isPrivateIp then ⟨false, .privateBlocked⟩
        else ⟨true, .empty⟩

/-- **Claim C1, counterexample.** The claim states that (without the
override) `validate` returns not-ok whenever a resolved address falls in
`fe80::/10`, and ok whenever all resolved addresses are public. Both
directions fail on the code's textual tests: `fe81::1` lies in
`fe80::/10` yet validation returns ok (the code only tests the literal
prefix `fe80:`), while `fc::1` (first group `0x00fc`) is outside
`fc00::/7` yet validation rejects it (its text starts with `fc`). -/
theorem validateHttpUrl_counterexample :
    specPrivateIp (.v6 [0xfe81, 0, 0, 0, 0, 0, 0, 1]) = true ∧
    (IpAddr.v6 [0xfe81, 0, 0, 0, 0, 0, 0, 1]).valid ∧
    validateHttpUrl (.parsed ['h', 't', 't', 'p', ':'] ['h']) false
        (.success [.v6 [0xfe81, 0, 0, 0, 0, 0, 0, 1]]) =
      ⟨true, .empty⟩ ∧
    specPrivateIp (.v6 [0xfc, 0, 0, 0, 0, 0, 0, 1]) = false ∧
    (IpAddr.v6 [0xfc, 0, 0, 0, 0, 0, 0, 1]).valid ∧
    validateHttpUrl (.parsed ['h', 't', 't', 'p', ':'] ['h']) false
        (.success [.v6 [0xfc, 0, 0, 0, 0, 0, 0, 1]]) =
      ⟨false, .privateBlocked⟩ := by
  refine ⟨by decide, ?_, by decide, by decide, ?_, by decide⟩ <;>
    simp [IpAddr.valid]

/-! Facts about the canonical IPv6 rendering, used to characterize the
code's textual tests numerically. -/

theorem bestZeroRun_start_ge :
    ∀ (l : List Nat) (i s n : Nat), bestZeroRun l i = some (s, n) → i ≤ s := by
  intro l
  induction l with
  | nil => intro i s n h; cases h
  | cons g rest ih =>
    intro i s n h
    unfold bestZeroRun at h
    split at h
    · rename_i bs bl heq
      split at h
      · simp only [Option.some.injEq, Prod.mk.injEq] at h
        omega
      · simp only [Option.some.injEq, Prod.mk.injEq] at h
        have := ih (i + 1) bs bl heq
        omega
    · split at h
      · simp only [Option.some.injEq, Prod.mk.injEq] at h
        omega
      · cases h

theorem bestZeroRun_at_start (l : List Nat) (i n : Nat)
    (h : bestZeroRun l i = some (i, n)) :
    n = leadingZeros l ∧ 2 ≤ n := by
  match l with
  | [] => cases h
  | g :: rest =>
    unfold bestZeroRun at h
    split at h
    · rename_i bs bl heq
      split at h
      · rename_i hz
        simp only [Option.some.injEq, Prod.mk.injEq] at h
        omega
      · simp only [Option.some.injEq, Prod.mk.injEq] at h
        have := bestZeroRun_start_ge rest (i + 1) bs bl heq
        omega
    · split at h
      · rename_i hz
        simp only [Option.some.injEq, Prod.mk.injEq] at h
        omega
      · cases h

theorem leadingZeros_pos (l : List Nat) (h : 1 ≤ leadingZeros l) :
    ∃ rest, l = 0 :: rest := by
  match l with
  | [] => simp [leadingZeros] at h
  | 0 :: rest => exact ⟨rest, rfl⟩
  | (k + 1) :: rest => simp [leadingZeros] at h

theorem leadingZeros_decomp :
    ∀ l : List Nat,
      l = List.replicate (leadingZeros l) 0 ++ l.drop (leadingZeros l) := by
  intro l
  induction l with
  | nil => rfl
  | cons g rest ih =>
    match g with
    | 0 =>
      simp only [leadingZeros, List.replicate_succ, List.cons_append,
        List.drop_succ_cons]
      exact congrArg (List.cons 0) ih
    | k + 1 =>
      simp [leadingZeros]

theorem hexDigit_inj :
    ∀ m, m < 16 → ∀ n, n < 16 → (hexDigit m = hexDigit n ↔ m = n) := by
  decide

theorem hexDigit_ne_colon : ∀ n, n < 16 → ':' ≠ hexDigit n := by
  decide

theorem hexDigit_eq_f : ∀ m, m < 16 → ('f' = hexDigit m ↔ m = 15) := by decide

theorem hexDigit_eq_e : ∀ m, m < 16 → ('e' = hexDigit m ↔ m = 14) := by decide

theorem hexDigit_eq_c : ∀ m, m < 16 → ('c' = hexDigit m ↔ m = 12) := by decide

theorem hexDigit_eq_d : ∀ m, m < 16 → ('d' = hexDigit m ↔ m = 13) := by decide

theorem hexDigit_eq_8 : ∀ m, m < 16 → ('8' = hexDigit m ↔ m = 8) := by decide

theorem hexDigit_eq_0 : ∀ m, m < 16 → ('0' = hexDigit m ↔ m = 0) := by decide

theorem hexChars_ne_nil (n : Nat) : hexChars n ≠ [] := by
  unfold hexChars
  split_ifs <;> simp

theorem mem_hexChars (n : Nat) (h : n < 65536) (c : Char)
    (hc : c ∈ hexChars n) : ∃ m, m < 16 ∧ c = hexDigit m := by
  unfold hexChars at hc
  split_ifs at hc with h1 h2 h3 <;>
    simp only [List.mem_cons, List.not_mem_nil, or_false] at hc
  · exact ⟨n, by omega, hc⟩
  · rcases hc with hc | hc
    exacts [⟨n / 16, by omega, hc⟩, ⟨n % 16, by omega, hc⟩]
  · rcases hc with hc | hc | hc
    exacts [⟨n / 256, by omega, hc⟩, ⟨n / 16 % 16, by omega, hc⟩,
      ⟨n % 16, by omega, hc⟩]
  · rcases hc with hc | hc | hc | hc
    exacts [⟨n / 4096, by omega, hc⟩, ⟨n / 256 % 16, by omega, hc⟩,
      ⟨n / 16 % 16, by omega, hc⟩, ⟨n % 16, by omega, hc⟩]

theorem colon_not_mem_hexChars (n : Nat) (h : n < 65536) :
    ':' ∉ hexChars n := by
  intro hc
  obtain ⟨m, hm, he⟩ := mem_hexChars n h ':' hc
  exact hexDigit_ne_colon m hm he

theorem hexChars_eq_one (n : Nat) (h : hexChars n = ['1']) : n = 1 := by
  unfold hexChars at h
  split_ifs at h with h1 h2 h3
  · simp only [List.cons.injEq, and_true] at h
    have h1' : ('1' = hexDigit n ↔ n = 1) := by
      have : ∀ m, m < 16 → ('1' = hexDigit m ↔ m = 1) := by decide
      exact this n h1
    exact h1'.1 h.symm
  · simp at h
  · simp at h
  · simp at h

theorem renderIPv6_shape (g : Nat) (rest : List Nat) (hne : rest ≠ []) :
    (∃ len, bestZeroRun (g :: rest) 0 = some (0, len) ∧ g = 0 ∧ 2 ≤ len ∧
        len = leadingZeros (g :: rest) ∧
        renderIPv6 (g :: rest) =
          ':' :: ':' :: joinColon (((g :: rest).drop len).map hexChars)) ∨
    (∃ tail, renderIPv6 (g :: rest) = hexChars g ++ ':' :: tail) := by
  cases hbz : bestZeroRun (g :: rest) 0 with
  | none =>
    have hrend : renderIPv6 (g :: rest) =
        joinColon ((g :: rest).map hexChars) := by
      unfold renderIPv6
      rw [hbz]
    right
    match rest, hne with
    | y :: rest₂, _ =>
      exact ⟨joinColon ((y :: rest₂).map hexChars), by rw [hrend]; rfl⟩
  | some pl =>
    obtain ⟨p, len⟩ := pl
    have hrend : renderIPv6 (g :: rest) =
        joinColon (((g :: rest).take p).map hexChars) ++ ':' :: ':' ::
          joinColon (((g :: rest).drop (p + len)).map hexChars) := by
      unfold renderIPv6
      rw [hbz]
    cases p with
    | zero =>
      left
      obtain ⟨hlz, h2⟩ := bestZeroRun_at_start _ _ _ hbz
      obtain ⟨rest', hr'⟩ := leadingZeros_pos (g :: rest) (by omega)
      have hg : g = 0 := by
        injection hr' with h1 h2
      refine ⟨len, rfl, hg, h2, hlz, ?_⟩
      rw [hrend]
      simp [joinColon]
    | succ q =>
      right
      rw [List.take_succ_cons, List.map_cons] at hrend
      cases hm : (rest.take q).map hexChars with
      | nil =>
        rw [hm] at hrend
        exact ⟨':' :: joinColon (((g :: rest).drop (q + 1 + len)).map hexChars),
          by rw [hrend]; simp [joinColon]⟩
      | cons z zs =>
        rw [hm] at hrend
        refine ⟨joinColon (z :: zs) ++ ':' :: ':' ::
          joinColon (((g :: rest).drop (q + 1 + len)).map hexChars), ?_⟩
        rw [hrend]
        simp [joinColon]

theorem renderIPv6_eq_loopback (gs : List Nat) (h8 : gs.length = 8)
    (hb : ∀ g ∈ gs, g < 65536) :
    renderIPv6 gs = [':', ':', '1'] ↔ gs = [0, 0, 0, 0, 0, 0, 0, 1] := by
  constructor
  · intro h
    match gs, h8, hb, h with
    | g :: rest, h8, hb, h =>
    have hne : rest ≠ [] := by
      intro he
      rw [he] at h8
      simp at h8
    rcases renderIPv6_shape g rest hne with
      ⟨len, hbz, hg0, hlen2, hlenlz, hr⟩ | ⟨tail, hr⟩
    · rw [hr] at h
      injection h with h1 h
      injection h with h2 h
      cases hd : (g :: rest).drop len with
      | nil =>
        rw [hd] at h
        simp [joinColon] at h
      | cons w t1 =>
        cases t1 with
        | nil =>
          rw [hd] at h
          simp only [List.map_cons, List.map_nil, joinColon] at h
          have hw : w = 1 := hexChars_eq_one w h
          have hlen7 : len = 7 := by
            have := congrArg List.length hd
            simp only [List.length_drop] at this
            simp only [List.length_cons, List.length_nil] at this h8
            omega
          have hdec := leadingZeros_decomp (g :: rest)
          rw [← hlenlz, hlen7] at hdec
          rw [hlen7, hw] at hd
          rw [hd] at hdec
          simpa [List.replicate] using hdec
        | cons w2 t2 =>
          rw [hd] at h
          simp only [List.map_cons, joinColon] at h
          obtain ⟨c, cs, hcc⟩ := List.exists_cons_of_ne_nil (hexChars_ne_nil w)
          rw [hcc] at h
          simp at h
    · rw [hr] at h
      obtain ⟨c, cs, hcc⟩ := List.exists_cons_of_ne_nil (hexChars_ne_nil g)
      rw [hcc] at h
      simp only [List.cons_append, List.cons.injEq] at h
      have hcmem : c ∈ hexChars g := by
        rw [hcc]
        exact List.mem_cons_self _ _
      have := colon_not_mem_hexChars g (hb g (List.mem_cons_self _ _))
      rw [h.1] at hcmem
      exact absurd hcmem this
  · rintro rfl
    decide

theorem fe80_prefix_iff (g : Nat) (hg : g < 65536) (tail : List Char) :
    ['f', 'e', '8', '0', ':'].isPrefixOf (hexChars g ++ ':' :: tail) = true ↔
      g = 0xfe80 := by
  unfold hexChars
  split_ifs with h1 h2 h3
  · exact iff_of_false (by simp [List.isPrefixOf]) (by omega)
  · exact iff_of_false (by simp [List.isPrefixOf]) (by omega)
  · exact iff_of_false (by simp [List.isPrefixOf]) (by omega)
  · simp only [List.cons_append, List.isPrefixOf, Bool.and_eq_true,
      beq_iff_eq, beq_self_eq_true, true_and, and_true]
    constructor
    · rintro ⟨ha, hb, hc, hd⟩
      have e1 := (hexDigit_eq_f (g / 4096) (by omega)).1 ha
      have e2 := (hexDigit_eq_e (g / 256 % 16) (by omega)).1 hb
      have e3 := (hexDigit_eq_8 (g / 16 % 16) (by omega)).1 hc
      have e4 := (hexDigit_eq_0 (g % 16) (by omega)).1 hd
      omega
    · rintro rfl
      refine ⟨by decide, by decide, by decide, by decide⟩

theorem fc_prefix_iff (g : Nat) (hg : g < 65536) (tail : List Char) :
    ['f', 'c'].isPrefixOf (hexChars g ++ ':' :: tail) = true ↔
      (g = 0xfc ∨ (0xfc0 ≤ g ∧ g ≤ 0xfcf) ∨ (0xfc00 ≤ g ∧ g ≤ 0xfcff)) := by
  unfold hexChars
  split_ifs with h1 h2 h3
  · exact iff_of_false (by simp [List.isPrefixOf]) (by omega)
  · simp only [List.cons_append, List.isPrefixOf, Bool.and_eq_true,
      beq_iff_eq, beq_self_eq_true, true_and, and_true]
    constructor
    · rintro ⟨ha, hb⟩
      have e1 := (hexDigit_eq_f (g / 16) (by omega)).1 ha
      have e2 := (hexDigit_eq_c (g % 16) (by omega)).1 hb
      omega
    · intro hr
      have hg252 : g = 252 := by omega
      subst hg252
      exact ⟨by decide, by decide⟩
  · simp only [List.cons_append, List.isPrefixOf, Bool.and_eq_true,
      beq_iff_eq, beq_self_eq_true, true_and, and_true]
    constructor
    · rintro ⟨ha, hb⟩
      have e1 := (hexDigit_eq_f (g / 256) (by omega)).1 ha
      have e2 := (hexDigit_eq_c (g / 16 % 16) (by omega)).1 hb
      omega
    · intro hr
      refine ⟨(hexDigit_eq_f _ (by omega)).2 (by omega),
        (hexDigit_eq_c _ (by omega)).2 (by omega)⟩
  · simp only [List.cons_append, List.isPrefixOf, Bool.and_eq_true,
      beq_iff_eq, beq_self_eq_true, true_and, and_true]
    constructor
    · rintro ⟨ha, hb⟩
      have e1 := (hexDigit_eq_f (g / 4096) (by omega)).1 ha
      have e2 := (hexDigit_eq_c (g / 256 % 16) (by omega)).1 hb
      omega
    · intro hr
      refine ⟨(hexDigit_eq_f _ (by omega)).2 (by omega),
        (hexDigit_eq_c _ (by omega)).2 (by omega)⟩

theorem fd_prefix_iff (g : Nat) (hg : g < 65536) (tail : List Char) :
    ['f', 'd'].isPrefixOf (hexChars g ++ ':' :: tail) = true ↔
      (g = 0xfd ∨ (0xfd0 ≤ g ∧ g ≤ 0xfdf) ∨ (0xfd00 ≤ g ∧ g ≤ 0xfdff)) := by
  unfold hexChars
  split_ifs with h1 h2 h3
  · exact iff_of_false (by simp [List.isPrefixOf]) (by omega)
  · simp only [List.cons_append, List.isPrefixOf, Bool.and_eq_true,
      beq_iff_eq, beq_self_eq_true, true_and, and_true]
    constructor
    · rintro ⟨ha, hb⟩
      have e1 := (hexDigit_eq_f (g / 16) (by omega)).1 ha
      have e2 := (hexDigit_eq_d (g % 16) (by omega)).1 hb
      omega
    · intro hr
      have hg253 : g = 253 := by omega
      subst hg253
      exact ⟨by decide, by decide⟩
  · simp only [List.cons_append, List.isPrefixOf, Bool.and_eq_true,
      beq_iff_eq, beq_self_eq_true, true_and, and_true]
    constructor
    · rintro ⟨ha, hb⟩
      have e1 := (hexDigit_eq_f (g / 256) (by omega)).1 ha
      have e2 := (hexDigit_eq_d (g / 16 % 16) (by omega)).1 hb
      omega
    · intro hr
      refine ⟨(hexDigit_eq_f _ (by omega)).2 (by omega),
        (hexDigit_eq_d _ (by omega)).2 (by omega)⟩
  · simp only [List.cons_append, List.isPrefixOf, Bool.and_eq_true,
      beq_iff_eq, beq_self_eq_true, true_and, and_true]
    constructor
    · rintro ⟨ha, hb⟩
      have e1 := (hexDigit_eq_f (g / 4096) (by omega)).1 ha
      have e2 := (hexDigit_eq_d (g / 256 % 16) (by omega)).1 hb
      omega
    · intro hr
      refine ⟨(hexDigit_eq_f _ (by omega)).2 (by omega),
        (hexDigit_eq_d _ (by omega)).2 (by omega)⟩

theorem isPrivateIp_v6_true_iff (gs : List Nat) :
    isPrivateIp (.v6 gs) = true ↔
      (renderIPv6 gs = [':', ':', '1'] ∨
        ['f', 'e', '8', '0', ':'].isPrefixOf (renderIPv6 gs) = true ∨
        ['f', 'c'].isPrefixOf (renderIPv6 gs) = true ∨
        ['f', 'd'].isPrefixOf (renderIPv6 gs) = true) := by
  simp only [isPrivateIp]
  split_ifs with a b c <;> simp_all

theorem amendedPrivateIp_v6_true_iff (gs : List Nat) :
    amendedPrivateIp (.v6 gs) = true ↔
      (gs = [0, 0, 0, 0, 0, 0, 0, 1] ∨ gs.headD 0 = 0xfe80 ∨
        (gs.headD 0 = 0xfc ∨ gs.headD 0 = 0xfd ∨
          (0xfc0 ≤ gs.headD 0 ∧ gs.headD 0 ≤ 0xfdf) ∨
          (0xfc00 ≤ gs.headD 0 ∧ gs.headD 0 ≤ 0xfdff))) := by
  simp [amendedPrivateIp, Bool.or_eq_true, Bool.and_eq_true, beq_iff_eq,
    decide_eq_true_eq, or_assoc]

/-- For every valid address, the code's check `isPrivateIp` agrees with
its numeric characterization `amendedPrivateIp`. -/
theorem isPrivateIp_eq_amended :
    ∀ a : IpAddr, a.valid → isPrivateIp a = amendedPrivateIp a := by
  intro a hv
  match a with
  | .v4 a b c d =>
    simp only [isPrivateIp, amendedPrivateIp, specPrivateIp]
    split_ifs with h1 h2 h3 h4 h5 h6
    all_goals symm
    all_goals
      first
      | (simp only [Bool.or_eq_true, Bool.and_eq_true, beq_iff_eq,
           decide_eq_true_eq]
         omega)
      | (rw [Bool.eq_false_iff]
         intro hX
         simp only [Bool.or_eq_true, Bool.and_eq_true, beq_iff_eq,
           decide_eq_true_eq] at hX
         omega)
  | .v6 gs =>
    obtain ⟨h8, hb⟩ := hv
    rw [Bool.eq_iff_iff, isPrivateIp_v6_true_iff, amendedPrivateIp_v6_true_iff]
    match gs, h8, hb with
    | g :: rest, h8, hb =>
    have hg : g < 65536 := hb g (List.mem_cons_self _ _)
    have hne : rest ≠ [] := by
      intro he
      rw [he] at h8
      simp at h8
    have hloop := renderIPv6_eq_loopback (g :: rest) h8 hb
    simp only [List.headD_cons]
    rcases renderIPv6_shape g rest hne with
      ⟨len, hbz, hg0, hlen2, hlenlz, hr⟩ | ⟨tail, hr⟩
    · subst hg0
      constructor
      · rintro (h | h | h | h)
        · exact Or.inl (hloop.1 h)
        · rw [hr] at h
          simp [List.isPrefixOf] at h
        · rw [hr] at h
          simp [List.isPrefixOf] at h
        · rw [hr] at h
          simp [List.isPrefixOf] at h
      · rintro (h | h | h)
        · exact Or.inl (hloop.2 h)
        · exact absurd h (by omega)
        · exfalso
          omega
    · have hnl : ¬(renderIPv6 (g :: rest) = [':', ':', '1']) := by
        intro hl
        rw [hr] at hl
        obtain ⟨c, cs, hcc⟩ := List.exists_cons_of_ne_nil (hexChars_ne_nil g)
        rw [hcc] at hl
        simp only [List.cons_append, List.cons.injEq] at hl
        have hcmem : c ∈ hexChars g := by
          rw [hcc]
          exact List.mem_cons_self _ _
        rw [hl.1] at hcmem
        exact absurd hcmem (colon_not_mem_hexChars g hg)
      have hgne : ¬(g :: rest = [0, 0, 0, 0, 0, 0, 0, 1]) := fun he =>
        hnl (hloop.2 he)
      rw [hr] at hnl
      rw [hr, fe80_prefix_iff g hg tail, fc_prefix_iff g hg tail,
        fd_prefix_iff g hg tail]
      constructor
      · rintro (h | h | h | h)
        · exact absurd h hnl
        · exact Or.inr (Or.inl h)
        · right; right
          omega
        · right; right
          omega
      · rintro (h | h | h)
        · exact absurd h hgne
        · exact Or.inr (Or.inl h)
        · right; right
          omega

/-- The `http:` protocol text. -/
def httpProto : List Char := ['h', 't', 't', 'p', ':']

/-- The `https:` protocol text. -/
def httpsProto : List Char := ['h', 't', 't', 'p', 's', ':']

/-- **Claim C1 (amended).** `validate` returns not-ok when the URL is
malformed or its scheme is not http/https; with the operator override it
returns ok for every well-formed http(s) URL without consulting DNS;
without the override, DNS failure yields not-ok, and for a DNS success
the verdict is ok iff no resolved address is private *per the code's
check*: the IPv4 ranges 10/8, 127/8, 169.254/16, 172.16/12, 192.168/16,
0.0.0.0/8, and for IPv6 exactly `::1`, first group `0xfe80` (fe80::/16 —
not all of fe80::/10), or a first group whose hex text begins `fc`/`fd`
(a superset of fc00::/7). `amendedPrivateIp` is that characterization,
and it provably coincides with `isPrivateIp` on all valid addresses. -/
theorem validateHttpUrl_spec :
    (∀ (allow : Bool) (dns : DnsResult),
        validateHttpUrl .malformed allow dns = ⟨false, .invalidUrl⟩) ∧
    (∀ (proto host : List Char) (allow : Bool) (dns : DnsResult),
        proto ≠ httpProto → proto ≠ httpsProto →
        validateHttpUrl (.parsed proto host) allow dns =
          ⟨false, .badScheme⟩) ∧
    (∀ (proto host : List Char) (dns : DnsResult),
        (proto = httpProto ∨ proto = httpsProto) →
        validateHttpUrl (.parsed proto host) true dns = ⟨true, .empty⟩) ∧
    (∀ proto host : List Char,
        (proto = httpProto ∨ proto = httpsProto) →
        validateHttpUrl (.parsed proto host) false .failure =
          ⟨false, .dnsFailed⟩) ∧
    (∀ (proto host : List Char) (addrs : List IpAddr),
        (proto = httpProto ∨ proto = httpsProto) →
        (∀ a ∈ addrs, a.valid) →
        ((validateHttpUrl (.parsed proto host) false (.success addrs)).ok =
            true ↔
          ∀ a ∈ addrs, amendedPrivateIp a = false)) ∧
    (∀ a : IpAddr, a.valid → isPrivateIp a = amendedPrivateIp a) := by
  refine ⟨fun _ _ => rfl, ?_, ?_, ?_, ?_, isPrivateIp_eq_amended⟩
  · intro proto host allow dns h1 h2
    simp [validateHttpUrl, httpProto, httpsProto] at h1 h2 ⊢
    simp [h1, h2]
  · intro proto host dns h
    rcases h with rfl | rfl <;> rfl
  · intro proto host h
    rcases h with rfl | rfl <;> rfl
  · intro proto host addrs hp hv
    have hstep : validateHttpUrl (.parsed proto host) false (.success addrs) =
        if addrs.any isPrivateIp then ⟨false, .privateBlocked⟩
        else ⟨true, .empty⟩ := by
      rcases hp with rfl | rfl <;> rfl
    rw [hstep]
    by_cases hany : addrs.any isPrivateIp
    · rw [if_pos hany]
      apply iff_of_false
      · simp
      · intro hall
        obtain ⟨x, hx, hpx⟩ := List.any_eq_true.1 hany
        have := isPrivateIp_eq_amended x (hv x hx)
        rw [this] at hpx
        rw [hall x hx] at hpx
        cases hpx
    · rw [if_neg hany]
      apply iff_of_true rfl
      intro x hx
      rw [← isPrivateIp_eq_amended x (hv x hx)]
      by_contra hcon
      have : isPrivateIp x = true := by
        cases hval : isPrivateIp x
        · exact absurd hval hcon
        · rfl
      exact hany (List.any_eq_true.2 ⟨x, hx, this⟩)

/-- Witness for the amended claim C1: the theorem applied at a malformed
URL, a DNS failure, a public `8.8.8.8` resolution (ok), and a private
`10.0.0.1` resolution (not-ok), plus the pointwise characterization at
the concrete link-local address `fe81::1`. -/
theorem validateHttpUrl_spec_witness :
    validateHttpUrl .malformed false .failure = ⟨false, .invalidUrl⟩ ∧
    validateHttpUrl (.parsed httpProto ['h']) false .failure =
      ⟨false, .dnsFailed⟩ ∧
    (validateHttpUrl (.parsed httpProto ['h'])
        false (.success [.v4 8 8 8 8])).ok = true ∧
    ¬((validateHttpUrl (.parsed httpProto ['h'])
        false (.success [.v4 10 0 0 1])).ok = true) ∧
    isPrivateIp (.v6 [0xfe81, 0, 0, 0, 0, 0, 0, 1]) =
      amendedPrivateIp (.v6 [0xfe81, 0, 0, 0, 0, 0, 0, 1]) := by
  refine ⟨validateHttpUrl_spec.1 false .failure,
    validateHttpUrl_spec.2.2.2.1 httpProto ['h'] (Or.inl rfl), ?_, ?_, ?_⟩
  · exact (validateHttpUrl_spec.2.2.2.2.1 httpProto ['h'] [.v4 8 8 8 8]
      (Or.inl rfl) (by intro a ha; simp at ha; subst ha; simp [IpAddr.valid])).2
      (by intro a ha; simp at ha; subst ha; decide)
  · intro hok
    have hall := (validateHttpUrl_spec.2.2.2.2.1 httpProto ['h']
      [.v4 10 0 0 1] (Or.inl rfl)
      (by intro a ha; simp at ha; subst ha; simp [IpAddr.valid])).1 hok
    have := hall (.v4 10 0 0 1) (by simp)
    simp [amendedPrivateIp, specPrivateIp] at this
  · exact validateHttpUrl_spec.2.2.2.2.2 _ (by simp [IpAddr.valid])

/-! ## Resource localization (`downloadResources`, src/collector.js 7–113)

The pass reads the markdown text, computes all image-reference matches
once (`content.matchAll(/!\[([^\]]*)\]\(([^)\s]+)(?:\s+"[^"]*")?\)/g)`),
then iterates over them: a url already downloaded in this pass is
skipped; a url not starting with `http` is resolved against the
document's recorded source URL (skipped when that is unknown, failed when
`new URL` throws); the resolved url is fetched through the queue; an
extension is derived from the response content-type, falling back to the
extension of `new URL(url).pathname` — which throws for a relative `url`;
the bytes are written to `<assetsDirName>/<safeFileName(alt ||
'image')>-<md5(url).slice(0,8)><ext>` and every occurrence of `(url)` in
the current text is replaced by `(<relative path>)`; a failure anywhere
in the try-block logs and continues with the next match.

The network and URL library are an environment record; the two helpers
from the absent `utils.js` are environment fields (Modelled from the
spec: `md5hex8` is the "content hash of the URL" — `md5(url).slice(0,8)`
— and `safeFileName` the "sanitized form of the alt text"; `utils.js` is
not among the sources). -/

/-- A fetched resource response: its `content-type` header text (the body
bytes only flow into the written file, which the claims count but do not
inspect). -/
structure ResResp where
  contentType : List Char
deriving DecidableEq, Repr

/-- The environment of a localization pass. `resolve rel base` models
`new URL(rel, base).toString()` (`none` = throws); `fetch u` models
`queuedFetch(u)` (`none` = throws after retries); `absPathname u` models
`new URL(u).pathname` (`none` = throws, e.g. for relative `u`);
`md5hex8` and `safeFileName` model the helpers from the absent
`utils.js`. -/
structure CollectorEnv where
  resolve : List Char → List Char → Option (List Char)
  fetch : List Char → Option ResResp
  absPathname : List Char → Option (List Char)
  md5hex8 : List Char → List Char
  safeFileName : List Char → List Char

/-- A character of the case-insensitive class `[a-z0-9]`. -/
def isExtChar (c : Char) : Bool :=
  ('a' ≤ c && c ≤ 'z') || ('A' ≤ c && c ≤ 'Z') || ('0' ≤ c && c ≤ '9')

/-- `pathname.match(/\.([a-z0-9]+)$/i)`: the nonempty all-alphanumeric
suffix after a final dot, returned with the dot
(`extension = '.' + extMatch[1]`). -/
def extMatch (p : List Char) : Option (List Char) :=
  match p.reverse.takeWhile isExtChar with
  | [] => none
  | suff =>
    match p.reverse.drop (p.reverse.takeWhile isExtChar).length with
    | '.' :: _ => some ('.' :: suff.reverse)
    | _ => none

/-- The fixed content-type → extension mapping of `downloadResources`
(`contentType.includes('image/jpeg')` and so on, in source order). -/
def ctExt (ct : List Char) : Option (List Char) :=
  if containsSeq ("image/jpeg".data) ct then some (".jpg".data)
  else if containsSeq ("image/png".data) ct then some (".png".data)
  else if containsSeq ("image/gif".data) ct then some (".gif".data)
  else if containsSeq ("image/webp".data) ct then some (".webp".data)
  else if containsSeq ("image/svg+xml".data) ct then some (".svg".data)
  else none

/-- The extension chosen for a download: the content-type mapping, else
the URL-path fallback — whose `new URL(url)` throws (`none`, caught by
the loop's try/catch) when `url` is not absolute; an absent regex match
yields the empty extension. -/
def extOf (env : CollectorEnv) (url ct : List Char) : Option (List Char) :=
  match ctExt ct with
  | some e => some e
  | none =>
    match env.absPathname url with
    | none => none
    | some p => some ((extMatch p).getD [])

/-- After the url run of the image regex
`!\[([^\]]*)\]\(([^)\s]+)(?:\s+"[^"]*")?\)` stops: either the closing
paren follows directly (1 character consumed), or the optional title
group `\s+"[^"]*"` followed by `)` matches (its length consumed); any
other continuation fails the whole match at this start position. -/
def tryTitle (s : List Char) : Option Nat :=
  match s with
  | ')' :: _ => some 1
  | c :: r3 =>
    if isSpaceChar c then
      match (c :: r3).drop ((c :: r3).takeWhile isSpaceChar).length with
      | '"' :: r4 =>
        match r4.drop (r4.takeWhile (fun x => x != '"')).length with
        | '"' :: ')' :: _ =>
          some (((c :: r3).takeWhile isSpaceChar).length +
            (r4.takeWhile (fun x => x != '"')).length + 3)
        | _ => none
      | _ => none
    else none
  | [] => none

/-- One attempt to match the image regex
`!\[([^\]]*)\]\(([^)\s]+)(?:\s+"[^"]*")?\)` at the head of `s`: on
success, the alt text, the url, and the number of characters consumed.
The two character classes exclude their terminators, so the regex engine
is deterministic. -/
def tryImg (s : List Char) : Option (List Char × List Char × Nat) :=
  match s with
  | '!' :: '[' :: r1 =>
    match r1.drop ((r1.takeWhile (fun c => c != ']')).length) with
    | ']' :: '(' :: r2 =>
      if (r2.takeWhile (fun c => c != ')' && !isSpaceChar c)) = [] then none
      else
        match tryTitle
          (r2.drop ((r2.takeWhile (fun c => c != ')' && !isSpaceChar c)).length))
          with
        | some extra =>
          some (r1.takeWhile (fun c => c != ']'),
            r2.takeWhile (fun c => c != ')' && !isSpaceChar c),
            (r1.takeWhile (fun c => c != ']')).length +
              (r2.takeWhile (fun c => c != ')' && !isSpaceChar c)).length +
              4 + extra)
        | none => none
    | _ => none
  | _ => none

/-- `content.matchAll(imgRegex)`: scan left to right, resuming after each
match; the fuel (instantiated with the text length) bounds the scan. -/
def scanGo : Nat → List Char → List (List Char × List Char)
  | 0, _ => []
  | _ + 1, [] => []
  | fuel + 1, c :: tail =>
    match tryImg (c :: tail) with
    | some (alt, url, k) => (alt, url) :: scanGo fuel ((c :: tail).drop k)
    | none => scanGo fuel tail

/-- All image-reference matches of a text, in order. -/
def scanImgs (s : List Char) : List (List Char × List Char) :=
  scanGo s.length s

/-- `url.startsWith('http') ? url : (sourceUrl ? new URL(url, sourceUrl)
: skip)`: the resolved download URL of one reference, `none` when the
reference is skipped (unknown source URL) or resolution throws. -/
def resolveRef (env : CollectorEnv) (sourceUrl : Option (List Char))
    (url : List Char) : Option (List Char) :=
  if ("http".data).isPrefixOf url then some url
  else
    match sourceUrl with
    | none => none
    | some su => env.resolve url su

/-- JS `altText || 'image'` (the empty string is falsy). -/
def jsOrList (x d : List Char) : List Char := if x = [] then d else x

/-- The state threaded through the match loop: the current text
(`updatedContent`), the dedup set (`downloadedUrls`), the file-write
events (filename, reference url), and the fetch attempts (resolved URLs,
in order). -/
structure PassState where
  content : List Char
  seen : List (List Char)
  writes : List (List Char × List Char)
  fetched : List (List Char)
deriving DecidableEq, Repr

/-- The body of `for (const match of matches)` in `downloadResources` for
one match `(alt, url)`. -/
def processMatch (env : CollectorEnv) (sourceUrl : Option (List Char))
    (assetsDirName : List Char) (st : PassState)
    (m : List Char × List Char) : PassState :=
  if st.seen.contains m.2 then st
  else
    match resolveRef env sourceUrl m.2 with
    | none => st
    | some dl =>
      match env.fetch dl with
      | none => { st with fetched := st.fetched ++ [dl] }
      | some resp =>
        match extOf env m.2 resp.contentType with
        | none => { st with fetched := st.fetched ++ [dl] }
        | some ext =>
          let filename := env.safeFileName (jsOrList m.1 ("image".data)) ++
            '-' :: env.md5hex8 m.2 ++ ext
          { content := replaceAll '(' (m.2 ++ [')'])
              ('(' :: (assetsDirName ++ '/' :: filename) ++ [')']) st.content
            seen := st.seen ++ [m.2]
            writes := st.writes ++ [(filename, m.2)]
            fetched := st.fetched ++ [dl] }

/-- `downloadResources` (src/collector.js lines 7–113) as a pure pass:
the matches are computed once from the input text, then processed in
order; the source URL stands for the value extracted from the document's
front matter. (File-system mechanics — the existence check, `mkdirSync`,
and the final conditional `writeFileSync` — carry no information beyond
the returned state.) -/
def downloadResources (env : CollectorEnv) (content : List Char)
    (sourceUrl : Option (List Char)) (assetsDirName : List Char) :
    PassState :=
  (scanImgs content).foldl (processMatch env sourceUrl assetsDirName)
    ⟨content, [], [], []⟩

/-- Whether one reference url would be downloaded successfully by the
pass (resolution, fetch and extension derivation all succeed); this is
independent of the dedup set. -/
def downloadOk (env : CollectorEnv) (sourceUrl : Option (List Char))
    (url : List Char) : Bool :=
  match resolveRef env sourceUrl url with
  | none => false
  | some dl =>
    match env.fetch dl with
    | none => false
    | some r => (extOf env url r.contentType).isSome

/-- The local relative path a successful download of `(alt, url)` would
be rewritten to. -/
def plannedLocalPath (env : CollectorEnv) (sourceUrl : Option (List Char))
    (assetsDirName alt url : List Char) : Option (List Char) :=
  match resolveRef env sourceUrl url with
  | none => none
  | some dl =>
    match env.fetch dl with
    | none => none
    | some r =>
      match extOf env url r.contentType with
      | none => none
      | some ext =>
        some (assetsDirName ++ '/' ::
          (env.safeFileName (jsOrList alt ("image".data)) ++
            '-' :: env.md5hex8 url ++ ext))

/-! ### Well-formed documents

Materialized documents are modelled as segment lists — literal text
interleaved with embedded image references — rendered to the raw text the
collector actually receives. Well-formedness confines the
regex-significant characters to the reference delimiters; the text
segments may still contain bare URLs, which is what refutes the
"zero occurrences" reading of the round-trip claim. -/

inductive Seg where
  | text (t : List Char)
  | img (alt url : List Char)
deriving DecidableEq, Repr

/-- The raw text of one segment (`![alt](url)` for references). -/
def renderSeg : Seg → List Char
  | .text t => t
  | .img alt url => '!' :: '[' :: (alt ++ ']' :: '(' :: (url ++ [')']))

/-- The raw text of a document. -/
def renderDoc (d : List Seg) : List Char := (d.map renderSeg).flatten

/-- Characters free of regex-significant syntax. -/
def plainChar (c : Char) : Bool :=
  !(c == '!' || c == '[' || c == ']' || c == '(' || c == ')' || c == '"')

/-- Well-formed segment: text is plain (it may contain spaces and bare
URLs); an alt text is plain; a reference url is nonempty, plain and free
of white space. -/
def wfSeg : Seg → Prop
  | .text t => ∀ c ∈ t, plainChar c = true
  | .img alt url => (∀ c ∈ alt, plainChar c = true) ∧ url ≠ [] ∧
      ∀ c ∈ url, plainChar c = true ∧ isSpaceChar c = false

def wfDoc (d : List Seg) : Prop := ∀ s ∈ d, wfSeg s

/-- The references of a document, in order. -/
def refs (d : List Seg) : List (List Char × List Char) :=
  d.filterMap (fun s =>
    match s with
    | .img a u => some (a, u)
    | .text _ => none)

/-- `mapUrl U P d`: every reference to `U` rewritten to `P` (what one
successful replacement step does to a well-formed document). -/
def mapUrl (U P : List Char) (d : List Seg) : List Seg :=
  d.map (fun s =>
    match s with
    | .img a u => .img a (if u = U then P else u)
    | .text t => .text t)

/-- A character acceptable inside a reference url or a rewritten local
path: plain and not white space. -/
def urlCharB (c : Char) : Bool := plainChar c && !isSpaceChar c

/-! ### Character and scanner lemmas -/

theorem plainChar_facts (c : Char) (h : plainChar c = true) :
    c ≠ '!' ∧ c ≠ '[' ∧ c ≠ ']' ∧ c ≠ '(' ∧ c ≠ ')' ∧ c ≠ '"' := by
  refine ⟨?_, ?_, ?_, ?_, ?_, ?_⟩ <;> intro heq <;> subst heq <;>
    revert h <;> decide

theorem isExtChar_url (c : Char) (h : isExtChar c = true) :
    plainChar c = true ∧ isSpaceChar c = false := by
  constructor
  · by_cases hval : plainChar c = true
    · exact hval
    · exfalso
      have hfalse : (c == '!' || c == '[' || c == ']' || c == '(' ||
          c == ')' || c == '"') = true := by
        cases hin : (c == '!' || c == '[' || c == ']' || c == '(' ||
            c == ')' || c == '"')
        · exfalso
          apply hval
          unfold plainChar
          rw [hin]
          rfl
        · rfl
      simp only [Bool.or_eq_true, beq_iff_eq, or_assoc] at hfalse
      rcases hfalse with rfl | rfl | rfl | rfl | rfl | rfl <;>
        revert h <;> decide
  · by_cases hs : isSpaceChar c = false
    · exact hs
    · exfalso
      have htrue : isSpaceChar c = true := by
        cases hv : isSpaceChar c
        · exact absurd hv hs
        · rfl
      simp only [isSpaceChar, Bool.or_eq_true, decide_eq_true_eq,
        or_assoc] at htrue
      rcases htrue with rfl | rfl | rfl | rfl <;> revert h <;> decide

theorem takeWhile_append_cons (p : Char → Bool) (l : List Char) (c : Char)
    (r : List Char) (hl : ∀ x ∈ l, p x = true) (hc : p c = false) :
    (l ++ c :: r).takeWhile p = l := by
  induction l with
  | nil => simp [List.takeWhile_cons, hc]
  | cons a l ih =>
    have ha := hl a (List.mem_cons_self _ _)
    simp only [List.cons_append, List.takeWhile_cons, ha, if_true]
    rw [ih (fun x hx => hl x (List.mem_cons_of_mem _ hx))]

theorem tryTitle_pos (s : List Char) (n : Nat) (h : tryTitle s = some n) :
    1 ≤ n := by
  unfold tryTitle at h
  split at h
  · simp only [Option.some.injEq] at h
    omega
  · split at h
    · split at h
      · split at h
        · simp only [Option.some.injEq] at h
          omega
        · cases h
      · cases h
    · cases h
  · cases h

theorem tryImg_consumed (s : List Char) (a u : List Char) (k : Nat)
    (h : tryImg s = some (a, u, k)) : 5 ≤ k := by
  unfold tryImg at h
  split at h
  · split at h
    · split at h
      · cases h
      · split at h
        · rename_i heq1 hne status extra htitle
          have hpos := tryTitle_pos _ _ htitle
          simp only [Option.some.injEq, Prod.mk.injEq] at h
          omega
        · cases h
    · cases h
  · cases h

theorem scanGo_irrel :
    ∀ (fuel₁ fuel₂ : Nat) (s : List Char), s.length ≤ fuel₁ →
      s.length ≤ fuel₂ → scanGo fuel₁ s = scanGo fuel₂ s := by
  intro fuel₁
  induction fuel₁ with
  | zero =>
    intro fuel₂ s h1 h2
    match s, h1 with
    | [], _ => cases fuel₂ <;> rfl
  | succ f ih =>
    intro fuel₂ s h1 h2
    match s with
    | [] => cases fuel₂ <;> rfl
    | c :: rest =>
      match fuel₂, h2 with
      | f₂ + 1, h2 =>
        simp only [scanGo]
        simp only [List.length_cons] at h1 h2
        cases ht : tryImg (c :: rest) with
        | none => exact ih f₂ rest (by omega) (by omega)
        | some triple =>
          obtain ⟨a, u, k⟩ := triple
          have hk := tryImg_consumed _ _ _ _ ht
          have hlen : ((c :: rest).drop k).length ≤ rest.length := by
            simp only [List.length_drop, List.length_cons]
            omega
          exact congrArg _ (ih f₂ _ (by omega) (by omega))

theorem scanImgs_cons_none (c : Char) (tail : List Char)
    (h : tryImg (c :: tail) = none) :
    scanImgs (c :: tail) = scanImgs tail := by
  unfold scanImgs
  show scanGo (tail.length + 1) (c :: tail) = _
  simp only [scanGo, h]

theorem scanImgs_cons_some (c : Char) (tail a u : List Char) (k : Nat)
    (h : tryImg (c :: tail) = some (a, u, k)) :
    scanImgs (c :: tail) = (a, u) :: scanImgs ((c :: tail).drop k) := by
  unfold scanImgs
  show scanGo (tail.length + 1) (c :: tail) = _
  simp only [scanGo, h]
  have hk := tryImg_consumed _ _ _ _ h
  refine congrArg _ (scanGo_irrel _ _ _ ?_ ?_) <;>
    simp only [List.length_drop, List.length_cons] <;> omega

theorem tryImg_not_bang (c : Char) (s : List Char) (hc : c ≠ '!') :
    tryImg (c :: s) = none := by
  unfold tryImg
  split
  · rename_i r1 heq
    injection heq with h1 _
    exact absurd h1 hc
  · rfl

theorem scan_skip_text :
    ∀ (t s : List Char), (∀ c ∈ t, c ≠ '!') →
      scanImgs (t ++ s) = scanImgs s := by
  intro t
  induction t with
  | nil => simp
  | cons c t ih =>
    intro s h
    rw [List.cons_append,
      scanImgs_cons_none _ _ (tryImg_not_bang _ _ (h c (List.mem_cons_self _ _)))]
    exact ih s (fun x hx => h x (List.mem_cons_of_mem _ hx))

theorem renderDoc_nil : renderDoc [] = [] := rfl

theorem renderDoc_cons (sg : Seg) (rest : List Seg) :
    renderDoc (sg :: rest) = renderSeg sg ++ renderDoc rest := by
  simp [renderDoc]

theorem refs_cons_text (t : List Char) (rest : List Seg) :
    refs (.text t :: rest) = refs rest := by
  simp [refs]

theorem refs_cons_img (a u : List Char) (rest : List Seg) :
    refs (.img a u :: rest) = (a, u) :: refs rest := by
  simp [refs]

theorem renderSeg_img_length (alt url : List Char) :
    (renderSeg (.img alt url)).length = alt.length + url.length + 5 := by
  simp [renderSeg]
  omega

theorem tryTitle_close (x : List Char) : tryTitle (')' :: x) = some 1 := rfl

theorem tryImg_at_img (alt url s : List Char)
    (halt : ∀ c ∈ alt, plainChar c = true) (hne : url ≠ [])
    (hurl : ∀ c ∈ url, plainChar c = true ∧ isSpaceChar c = false) :
    tryImg (renderSeg (.img alt url) ++ s) =
      some (alt, url, alt.length + url.length + 5) := by
  have hr : renderSeg (.img alt url) ++ s =
      '!' :: '[' :: (alt ++ ']' :: '(' :: (url ++ ')' :: s)) := by
    simp [renderSeg]
  rw [hr]
  have htw1 : (alt ++ ']' :: '(' :: (url ++ ')' :: s)).takeWhile
      (fun c => c != ']') = alt := by
    apply takeWhile_append_cons
    · intro x hx
      have hx3 := (plainChar_facts x (halt x hx)).2.2.1
      simp [hx3]
    · decide
  have htw2 : (url ++ ')' :: s).takeWhile
      (fun c => c != ')' && !isSpaceChar c) = url := by
    apply takeWhile_append_cons
    · intro x hx
      have hx1 := (plainChar_facts x (hurl x hx).1).2.2.2.2.1
      have hx2 := (hurl x hx).2
      simp [hx1, hx2]
    · decide
  simp only [tryImg, htw1, List.drop_left, htw2, tryTitle_close]
  rw [if_neg hne]

theorem scanImgs_render (d : List Seg) (wf : wfDoc d) :
    scanImgs (renderDoc d) = refs d := by
  induction d with
  | nil => rfl
  | cons sg rest ih =>
    have wfrest : wfDoc rest := fun s hs => wf s (List.mem_cons_of_mem _ hs)
    match sg with
    | .text t =>
      have hw := wf (.text t) (List.mem_cons_self _ _)
      rw [renderDoc_cons, refs_cons_text]
      show scanImgs (t ++ renderDoc rest) = refs rest
      rw [scan_skip_text t _ (fun c hc => (plainChar_facts c (hw c hc)).1)]
      exact ih wfrest
    | .img a u =>
      obtain ⟨halt, hne, hurl⟩ := wf (.img a u) (List.mem_cons_self _ _)
      rw [renderDoc_cons, refs_cons_img]
      have ht := tryImg_at_img a u (renderDoc rest) halt hne hurl
      have hform : renderSeg (.img a u) ++ renderDoc rest =
          '!' :: ('[' :: (a ++ ']' :: '(' :: (u ++ [')'])) ++ renderDoc rest) := by
        simp [renderSeg]
      rw [hform] at ht ⊢
      rw [scanImgs_cons_some _ _ _ _ _ ht]
      have hdrop : ('!' :: ('[' :: (a ++ ']' :: '(' :: (u ++ [')'])) ++
          renderDoc rest)).drop (a.length + u.length + 5) = renderDoc rest := by
        have hlen : ('!' :: ('[' :: (a ++ ']' :: '(' :: (u ++ [')'])))).length =
            a.length + u.length + 5 := by
          simp
          omega
        calc ('!' :: ('[' :: (a ++ ']' :: '(' :: (u ++ [')'])) ++
              renderDoc rest)).drop (a.length + u.length + 5)
            = (('!' :: ('[' :: (a ++ ']' :: '(' :: (u ++ [')'])))) ++
                renderDoc rest).drop
                ('!' :: ('[' :: (a ++ ']' :: '(' :: (u ++ [')'])))).length := by
              rw [hlen]
              simp
          _ = renderDoc rest := List.drop_left _ _
      rw [hdrop]
      exact congrArg _ (ih wfrest)

/-! ### Replacement lemmas: `split("(url)").join("(path)")` on rendered
documents -/

theorem replaceAll_skip_plain (ps repl : List Char) :
    ∀ (t s : List Char), (∀ c ∈ t, c ≠ '(') →
      replaceAll '(' ps repl (t ++ s) = t ++ replaceAll '(' ps repl s := by
  intro t
  induction t with
  | nil => simp
  | cons c t ih =>
    intro s h
    have hc := h c (List.mem_cons_self _ _)
    have hneg : ¬(('(' :: ps).isPrefixOf (c :: (t ++ s)) = true) := by
      simp only [List.isPrefixOf, Bool.and_eq_true, beq_iff_eq]
      rintro ⟨h1, -⟩
      exact hc h1.symm
    rw [List.cons_append, replaceAll_cons, if_neg hneg,
      ih s (fun x hx => h x (List.mem_cons_of_mem _ hx))]
    rfl

theorem closeParen_prefix_iff :
    ∀ (U u s : List Char), (∀ c ∈ U, c ≠ ')') → (∀ c ∈ u, c ≠ ')') →
      ((U ++ [')']).isPrefixOf (u ++ ')' :: s) = true ↔ U = u) := by
  intro U
  induction U with
  | nil =>
    intro u s hU hu
    cases u with
    | nil => simp [List.isPrefixOf]
    | cons c u' =>
      have hc := hu c (List.mem_cons_self _ _)
      apply iff_of_false
      · simp only [List.nil_append, List.cons_append, List.isPrefixOf,
          Bool.and_eq_true, beq_iff_eq]
        rintro ⟨h1, -⟩
        exact hc h1.symm
      · simp
  | cons a U' ih =>
    intro u s hU hu
    cases u with
    | nil =>
      have ha := hU a (List.mem_cons_self _ _)
      apply iff_of_false
      · simp only [List.cons_append, List.nil_append, List.isPrefixOf,
          Bool.and_eq_true, beq_iff_eq]
        rintro ⟨h1, -⟩
        exact ha h1
      · simp
    | cons c u' =>
      by_cases hac : a = c
      · subst hac
        simp only [List.cons_append, List.isPrefixOf, Bool.and_eq_true,
          beq_self_eq_true, Bool.true_and, true_and, List.cons.injEq]
        exact ih u' s (fun x hx => hU x (List.mem_cons_of_mem _ hx))
          (fun x hx => hu x (List.mem_cons_of_mem _ hx))
      · apply iff_of_false
        · simp only [List.cons_append, List.isPrefixOf, Bool.and_eq_true,
            beq_iff_eq]
          rintro ⟨h1, -⟩
          exact hac h1
        · intro he
          injection he with h1 _
          exact hac h1

theorem wfDoc_cons {sg : Seg} {rest : List Seg} (wf : wfDoc (sg :: rest)) :
    wfSeg sg ∧ wfDoc rest :=
  ⟨wf sg (List.mem_cons_self _ _),
    fun s hs => wf s (List.mem_cons_of_mem _ hs)⟩

theorem replaceAll_render (U P : List Char)
    (hU : ∀ c ∈ U, c ≠ '(' ∧ c ≠ ')') :
    ∀ d : List Seg, wfDoc d →
      replaceAll '(' (U ++ [')']) ('(' :: (P ++ [')'])) (renderDoc d) =
        renderDoc (mapUrl U P d) := by
  intro d
  induction d with
  | nil => simp [renderDoc, mapUrl, replaceAll_nil]
  | cons sg rest ih =>
    intro wf
    obtain ⟨hwsg, hwrest⟩ := wfDoc_cons wf
    match sg with
    | .text t =>
      rw [renderDoc_cons]
      show replaceAll '(' (U ++ [')']) ('(' :: (P ++ [')']))
        (t ++ renderDoc rest) = renderDoc (mapUrl U P (.text t :: rest))
      rw [replaceAll_skip_plain _ _ t _
        (fun c hc => (plainChar_facts c (hwsg c hc)).2.2.2.1)]
      have : mapUrl U P (.text t :: rest) = .text t :: mapUrl U P rest := rfl
      rw [this, renderDoc_cons, ih hwrest]
      rfl
    | .img a u =>
      obtain ⟨halt, hne, hurl⟩ := hwsg
      have hmap : mapUrl U P (.img a u :: rest) =
          .img a (if u = U then P else u) :: mapUrl U P rest := rfl
      have hform : renderDoc (Seg.img a u :: rest) =
          ('!' :: '[' :: (a ++ [']'])) ++
            ('(' :: (u ++ ')' :: renderDoc rest)) := by
        rw [renderDoc_cons]
        simp [renderSeg]
      rw [hform]
      rw [replaceAll_skip_plain _ _ ('!' :: '[' :: (a ++ [']'])) _ ?hplain]
      case hplain =>
        intro c hcm
        simp only [List.mem_cons, List.mem_append, List.mem_singleton,
          List.not_mem_nil, or_false] at hcm
        rcases hcm with rfl | rfl | hcm | rfl
        · decide
        · decide
        · exact (plainChar_facts c (halt c hcm)).2.2.2.1
        · decide
      rw [replaceAll_cons]
      have hprefIff : (('(' :: (U ++ [')'])).isPrefixOf
          ('(' :: (u ++ ')' :: renderDoc rest)) = true) ↔ U = u := by
        simp only [List.isPrefixOf, Bool.and_eq_true, beq_self_eq_true,
          true_and]
        exact closeParen_prefix_iff U u (renderDoc rest)
          (fun c hc => (hU c hc).2)
          (fun c hc => (plainChar_facts c (hurl c hc).1).2.2.2.2.1)
      by_cases huU : u = U
      · rw [if_pos (hprefIff.2 huU.symm)]
        have hdrop : ('(' :: (u ++ ')' :: renderDoc rest)).drop
            ('(' :: (U ++ [')'])).length = renderDoc rest := by
          subst huU
          have heq2 : ('(' :: (u ++ ')' :: renderDoc rest)) =
              ('(' :: (u ++ [')'])) ++ renderDoc rest := by simp
          rw [heq2]
          exact List.drop_left _ _
        rw [hdrop, ih hwrest, hmap, renderDoc_cons]
        rw [if_pos huU]
        simp [renderSeg]
      · rw [if_neg (fun hp => huU (hprefIff.1 hp).symm)]
        rw [replaceAll_skip_plain _ _ u _
          (fun c hc => (plainChar_facts c (hurl c hc).1).2.2.2.1)]
        rw [replaceAll_cons]
        have hneg2 : ¬(('(' :: (U ++ [')'])).isPrefixOf
            (')' :: renderDoc rest) = true) := by
          simp only [List.isPrefixOf, Bool.and_eq_true, beq_iff_eq]
          rintro ⟨h1, -⟩
          exact absurd h1.symm (by decide)
        rw [if_neg hneg2, ih hwrest, hmap, renderDoc_cons]
        rw [if_neg huU]
        simp [renderSeg]

/-! ### Occurrence counting (`containsSeq`) on rendered documents -/

theorem containsSeq_nil_pat : ∀ s, containsSeq ([] : List Char) s = true := by
  intro s
  cases s <;> rfl

theorem containsSeq_skip_plain (q : List Char) :
    ∀ (t s : List Char), (∀ c ∈ t, c ≠ '(') →
      containsSeq ('(' :: q) (t ++ s) = containsSeq ('(' :: q) s := by
  intro t
  induction t with
  | nil => simp
  | cons c t ih =>
    intro s h
    have hc := h c (List.mem_cons_self _ _)
    rw [List.cons_append]
    show (('(' :: q).isPrefixOf (c :: (t ++ s)) ||
      containsSeq ('(' :: q) (t ++ s)) = containsSeq ('(' :: q) s
    have hpre : ('(' :: q).isPrefixOf (c :: (t ++ s)) = false := by
      cases hv : ('(' :: q).isPrefixOf (c :: (t ++ s))
      · rfl
      · exfalso
        simp only [List.isPrefixOf, Bool.and_eq_true, beq_iff_eq] at hv
        exact hc hv.1.symm
    rw [hpre, Bool.false_or]
    exact ih s (fun x hx => h x (List.mem_cons_of_mem _ hx))

theorem containsSeq_append_self (p : List Char) :
    ∀ (l r : List Char), containsSeq p (l ++ (p ++ r)) = true := by
  intro l
  induction l with
  | nil =>
    intro r
    simp only [List.nil_append]
    match p with
    | [] => exact containsSeq_nil_pat r
    | c :: p' =>
      rw [List.cons_append]
      show ((c :: p').isPrefixOf (c :: (p' ++ r)) ||
        containsSeq (c :: p') (p' ++ r)) = true
      have h1 : (c :: p').isPrefixOf (c :: (p' ++ r)) = true := by
        apply List.isPrefixOf_iff_prefix.2
        rw [← List.cons_append]
        exact List.prefix_append _ _
      rw [h1, Bool.true_or]
  | cons c l' ih =>
    intro r
    rw [List.cons_append]
    match p with
    | [] => exact containsSeq_nil_pat _
    | x :: xs =>
      show ((x :: xs).isPrefixOf (c :: (l' ++ (x :: xs ++ r))) ||
        containsSeq (x :: xs) (l' ++ (x :: xs ++ r))) = true
      rw [ih r, Bool.or_true]

theorem containsSeq_img_present (a u : List Char) (d : List Seg)
    (hmem : Seg.img a u ∈ d) :
    containsSeq ('(' :: (u ++ [')'])) (renderDoc d) = true := by
  obtain ⟨d₁, d₂, rfl⟩ := List.append_of_mem hmem
  have hsplit : renderDoc (d₁ ++ Seg.img a u :: d₂) =
      (renderDoc d₁ ++ ('!' :: '[' :: (a ++ [']']))) ++
        (('(' :: (u ++ [')'])) ++ renderDoc d₂) := by
    simp [renderDoc, renderSeg]
  rw [hsplit]
  exact containsSeq_append_self _ _ _

theorem not_containsSeq_render (U : List Char)
    (hU : ∀ c ∈ U, c ≠ '(' ∧ c ≠ ')') :
    ∀ d : List Seg, wfDoc d → (∀ a u, Seg.img a u ∈ d → u ≠ U) →
      containsSeq ('(' :: (U ++ [')'])) (renderDoc d) = false := by
  intro d
  induction d with
  | nil =>
    intro _ _
    rfl
  | cons sg rest ih =>
    intro wf hno
    obtain ⟨hwsg, hwrest⟩ := wfDoc_cons wf
    have hnorest : ∀ a u, Seg.img a u ∈ rest → u ≠ U :=
      fun a u hm => hno a u (List.mem_cons_of_mem _ hm)
    match sg with
    | .text t =>
      rw [renderDoc_cons]
      show containsSeq ('(' :: (U ++ [')'])) (t ++ renderDoc rest) = false
      rw [containsSeq_skip_plain _ t _
        (fun c hc => (plainChar_facts c (hwsg c hc)).2.2.2.1)]
      exact ih hwrest hnorest
    | .img a u =>
      obtain ⟨halt, hne, hurl⟩ := hwsg
      have huU : u ≠ U := hno a u (List.mem_cons_self _ _)
      have hform : renderDoc (Seg.img a u :: rest) =
          ('!' :: '[' :: (a ++ [']'])) ++
            ('(' :: (u ++ ')' :: renderDoc rest)) := by
        rw [renderDoc_cons]
        simp [renderSeg]
      rw [hform]
      rw [containsSeq_skip_plain _ ('!' :: '[' :: (a ++ [']'])) _ ?hplain2]
      case hplain2 =>
        intro c hcm
        simp only [List.mem_cons, List.mem_append, List.mem_singleton,
          List.not_mem_nil, or_false] at hcm
        rcases hcm with rfl | rfl | hcm | rfl
        · decide
        · decide
        · exact (plainChar_facts c (halt c hcm)).2.2.2.1
        · decide
      show (('(' :: (U ++ [')'])).isPrefixOf ('(' :: (u ++ ')' :: renderDoc rest)) ||
        containsSeq ('(' :: (U ++ [')'])) (u ++ ')' :: renderDoc rest)) = false
      have hpre : ('(' :: (U ++ [')'])).isPrefixOf
          ('(' :: (u ++ ')' :: renderDoc rest)) = false := by
        cases hv : ('(' :: (U ++ [')'])).isPrefixOf
            ('(' :: (u ++ ')' :: renderDoc rest))
        · rfl
        · exfalso
          have hiff : (U ++ [')']).isPrefixOf (u ++ ')' :: renderDoc rest) =
              true ↔ U = u :=
            closeParen_prefix_iff U u (renderDoc rest)
              (fun c hc => (hU c hc).2)
              (fun c hc => (plainChar_facts c (hurl c hc).1).2.2.2.2.1)
          simp only [List.isPrefixOf, Bool.and_eq_true, beq_self_eq_true,
            true_and] at hv
          exact huU (hiff.1 hv).symm
      rw [hpre, Bool.false_or]
      have hskip : containsSeq ('(' :: (U ++ [')']))
          (u ++ ')' :: renderDoc rest) =
          containsSeq ('(' :: (U ++ [')'])) (')' :: renderDoc rest) :=
        containsSeq_skip_plain _ u _
          (fun c hc => (plainChar_facts c (hurl c hc).1).2.2.2.1)
      rw [hskip]
      show (('(' :: (U ++ [')'])).isPrefixOf (')' :: renderDoc rest) ||
        containsSeq ('(' :: (U ++ [')'])) (renderDoc rest)) = false
      have hpre2 : ('(' :: (U ++ [')'])).isPrefixOf
          (')' :: renderDoc rest) = false := by
        cases hv : ('(' :: (U ++ [')'])).isPrefixOf (')' :: renderDoc rest)
        · rfl
        · exfalso
          simp only [List.isPrefixOf, Bool.and_eq_true, beq_iff_eq] at hv
          exact absurd hv.1 (by decide)
      rw [hpre2, Bool.false_or]
      exact ih hwrest hnorest

/-! ### The dedup set and the write list of a pass -/

/-- First-occurrence dedup relative to an initial seen-set: the urls the
loop's `downloadedUrls.has` check lets through (successful downloads are
appended to the set as the loop runs). -/
def dedupFirst (seen : List (List Char)) : List (List Char) → List (List Char)
  | [] => []
  | u :: rest =>
    if seen.contains u then dedupFirst seen rest
    else u :: dedupFirst (seen ++ [u]) rest

theorem contains_true_iff (l : List (List Char)) (u : List Char) :
    l.contains u = true ↔ u ∈ l := by
  simp

theorem contains_false_iff (l : List (List Char)) (u : List Char) :
    l.contains u = false ↔ u ∉ l := by
  simp

theorem dedupFirst_eq_self :
    ∀ (l seen : List (List Char)), l.Nodup →
      (∀ u ∈ l, u ∉ seen) → dedupFirst seen l = l := by
  intro l
  induction l with
  | nil =>
    intro seen _ _
    rfl
  | cons u rest ih =>
    intro seen hnd hns
    obtain ⟨hnotin, hndrest⟩ := List.nodup_cons.1 hnd
    have hc : seen.contains u = false :=
      (contains_false_iff _ _).2 (hns u (List.mem_cons_self _ _))
    show (if seen.contains u then dedupFirst seen rest
      else u :: dedupFirst (seen ++ [u]) rest) = u :: rest
    rw [hc]
    show u :: dedupFirst (seen ++ [u]) rest = u :: rest
    rw [ih (seen ++ [u]) hndrest ?hrest]
    case hrest =>
      intro v hv hvin
      rcases List.mem_append.1 hvin with h1 | h1
      · exact hns v (List.mem_cons_of_mem _ hv) h1
      · rw [List.mem_singleton] at h1
        exact hnotin (h1 ▸ hv)

theorem urlCharB_plain (c : Char) (h : urlCharB c = true) :
    plainChar c = true ∧ isSpaceChar c = false := by
  simp only [urlCharB, Bool.and_eq_true, Bool.not_eq_true'] at h
  exact h

theorem refs_mem (a u : List Char) (d : List Seg) :
    (a, u) ∈ refs d ↔ Seg.img a u ∈ d := by
  unfold refs
  rw [List.mem_filterMap]
  constructor
  · rintro ⟨s, hs, heq⟩
    cases s with
    | text t => simp at heq
    | img a2 u2 =>
      simp only [Option.some.injEq, Prod.mk.injEq] at heq
      obtain ⟨rfl, rfl⟩ := heq
      exact hs
  · intro h
    exact ⟨_, h, rfl⟩

theorem mapUrl_mem_of (U P : List Char) (d : List Seg) (a u : List Char)
    (hmem : Seg.img a u ∈ d) (hne : u ≠ U) :
    Seg.img a u ∈ mapUrl U P d := by
  have h := List.mem_map_of_mem
    (fun s => match s with
      | Seg.img a2 u2 => Seg.img a2 (if u2 = U then P else u2)
      | Seg.text t => Seg.text t) hmem
  simpa [mapUrl, if_neg hne] using h

theorem mapUrl_mem_inv (U P : List Char) (d : List Seg) (a u : List Char)
    (hmem : Seg.img a u ∈ mapUrl U P d) :
    ∃ u2, Seg.img a u2 ∈ d ∧ ((u2 = U ∧ u = P) ∨ (u2 ≠ U ∧ u = u2)) := by
  unfold mapUrl at hmem
  rcases List.mem_map.1 hmem with ⟨s, hs, heq⟩
  cases s with
  | text t => simp at heq
  | img a2 u2 =>
    simp only [Seg.img.injEq] at heq
    obtain ⟨rfl, hequ⟩ := heq
    by_cases h : u2 = U
    · exact ⟨u2, hs, Or.inl ⟨h, by rw [← hequ, if_pos h]⟩⟩
    · exact ⟨u2, hs, Or.inr ⟨h, by rw [← hequ, if_neg h]⟩⟩

theorem mapUrl_wf (U P : List Char) (d : List Seg) (hwf : wfDoc d)
    (hPne : P ≠ []) (hP : ∀ c ∈ P, urlCharB c = true) :
    wfDoc (mapUrl U P d) := by
  intro s hs
  unfold mapUrl at hs
  rcases List.mem_map.1 hs with ⟨s0, hs0, rfl⟩
  have hw0 := hwf s0 hs0
  cases s0 with
  | text t => exact hw0
  | img a u =>
    obtain ⟨halt, hne, hurl⟩ := hw0
    show wfSeg (Seg.img a (if u = U then P else u))
    by_cases h : u = U
    · rw [if_pos h]
      exact ⟨halt, hPne, fun c hc => urlCharB_plain c (hP c hc)⟩
    · rw [if_neg h]
      exact ⟨halt, hne, hurl⟩

/-- Every extension the content-type table yields is made of plain,
non-space characters. -/
theorem ctExt_chars (ct e : List Char) (h : ctExt ct = some e) :
    ∀ c ∈ e, urlCharB c = true := by
  unfold ctExt at h
  split_ifs at h <;> (injection h with h; subst h; decide)

/-- Every extension the URL-path fallback regex yields is a dot followed
by alphanumerics, hence plain and non-space. -/
theorem extMatch_chars (p ex : List Char) (h : extMatch p = some ex) :
    ∀ c ∈ ex, urlCharB c = true := by
  unfold extMatch at h
  split at h
  · exact absurd h (by simp)
  · split at h
    · injection h with h
      subst h
      intro c hc
      rcases List.mem_cons.1 hc with rfl | hc2
      · decide
      · have hc3 : c ∈ p.reverse.takeWhile isExtChar := List.mem_reverse.1 hc2
        have hext : isExtChar c = true := List.mem_takeWhile_imp hc3
        have hpl := isExtChar_url c hext
        simp [urlCharB, hpl.1, hpl.2]
    · exact absurd h (by simp)

/-- The chosen extension of any successful download is made of plain,
non-space characters. -/
theorem extOf_chars (env : CollectorEnv) (url ct e : List Char)
    (h : extOf env url ct = some e) : ∀ c ∈ e, urlCharB c = true := by
  unfold extOf at h
  cases hct : ctExt ct with
  | some e0 =>
    simp only [hct] at h
    injection h with h
    subst h
    exact ctExt_chars ct e0 hct
  | none =>
    simp only [hct] at h
    cases hap : env.absPathname url with
    | none => simp [hap] at h
    | some p =>
      simp only [hap, Option.some.injEq] at h
      subst h
      cases hem : extMatch p with
      | none => simp [hem]
      | some ex =>
        rw [Option.getD_some]
        exact extMatch_chars p ex hem

/-- The dedup set (`downloadedUrls`) and the write list after the match
loop: exactly the first occurrences of the successfully downloaded
reference texts, in order; every fetched URL is a resolution of some
match. -/
theorem processFold_writes (env : CollectorEnv) (su : Option (List Char))
    (dir : List Char) :
    ∀ (ms : List (List Char × List Char)) (st : PassState),
      ((ms.foldl (processMatch env su dir) st).seen =
        st.seen ++ dedupFirst st.seen
          ((ms.map Prod.snd).filter (downloadOk env su))) ∧
      ((ms.foldl (processMatch env su dir) st).writes.map Prod.snd =
        st.writes.map Prod.snd ++ dedupFirst st.seen
          ((ms.map Prod.snd).filter (downloadOk env su))) ∧
      (∀ dl ∈ (ms.foldl (processMatch env su dir) st).fetched,
        dl ∈ st.fetched ∨ ∃ m ∈ ms, resolveRef env su m.2 = some dl) := by
  intro ms
  induction ms with
  | nil =>
    intro st
    refine ⟨by simp [dedupFirst], by simp [dedupFirst], ?_⟩
    intro dl hdl
    exact Or.inl hdl
  | cons m rest ih =>
    intro st
    rw [List.foldl_cons, List.map_cons]
    cases hc : st.seen.contains m.2 with
    | true =>
      have hmem : m.2 ∈ st.seen := by simpa using hc
      have hpm : processMatch env su dir st m = st := by
        simp [processMatch, hmem]
      rw [hpm]
      obtain ⟨ihs, ihw, ihf⟩ := ih st
      cases hok : downloadOk env su m.2 with
      | false =>
        have hfilter : (m.2 :: rest.map Prod.snd).filter (downloadOk env su) =
            (rest.map Prod.snd).filter (downloadOk env su) := by
          simp [List.filter_cons, hok]
        rw [hfilter]
        exact ⟨ihs, ihw, fun dl hdl => (ihf dl hdl).imp id
          (fun ⟨m2, hm2, h2⟩ => ⟨m2, List.mem_cons_of_mem _ hm2, h2⟩)⟩
      | true =>
        have hfilter : (m.2 :: rest.map Prod.snd).filter (downloadOk env su) =
            m.2 :: (rest.map Prod.snd).filter (downloadOk env su) := by
          simp [List.filter_cons, hok]
        have hd : dedupFirst st.seen
            (m.2 :: (rest.map Prod.snd).filter (downloadOk env su)) =
            dedupFirst st.seen
              ((rest.map Prod.snd).filter (downloadOk env su)) := by
          simp [dedupFirst, hmem]
        rw [hfilter, hd]
        exact ⟨ihs, ihw, fun dl hdl => (ihf dl hdl).imp id
          (fun ⟨m2, hm2, h2⟩ => ⟨m2, List.mem_cons_of_mem _ hm2, h2⟩)⟩
    | false =>
      have hnm : m.2 ∉ st.seen := by simpa using hc
      have hnoadd : ∀ st2 : PassState, st2.seen = st.seen →
          st2.writes = st.writes →
          (∀ dl ∈ st2.fetched, dl ∈ st.fetched ∨ resolveRef env su m.2 = some dl) →
          downloadOk env su m.2 = false →
          ((rest.foldl (processMatch env su dir) st2).seen =
            st.seen ++ dedupFirst st.seen
              ((m.2 :: rest.map Prod.snd).filter (downloadOk env su))) ∧
          ((rest.foldl (processMatch env su dir) st2).writes.map Prod.snd =
            st.writes.map Prod.snd ++ dedupFirst st.seen
              ((m.2 :: rest.map Prod.snd).filter (downloadOk env su))) ∧
          (∀ dl ∈ (rest.foldl (processMatch env su dir) st2).fetched,
            dl ∈ st.fetched ∨ ∃ m2 ∈ m :: rest, resolveRef env su m2.2 = some dl) := by
        intro st2 hseen2 hwr2 hfet2 hok
        obtain ⟨ihs, ihw, ihf⟩ := ih st2
        rw [hseen2] at ihs
        rw [hwr2, hseen2] at ihw
        have hfilter : (m.2 :: rest.map Prod.snd).filter (downloadOk env su) =
            (rest.map Prod.snd).filter (downloadOk env su) := by
          simp [List.filter_cons, hok]
        rw [hfilter]
        refine ⟨ihs, ihw, ?_⟩
        intro dl hdl
        rcases ihf dl hdl with h1 | ⟨m2, hm2, h2⟩
        · rcases hfet2 dl h1 with h3 | h3
          · exact Or.inl h3
          · exact Or.inr ⟨m, List.mem_cons_self _ _, h3⟩
        · exact Or.inr ⟨m2, List.mem_cons_of_mem _ hm2, h2⟩
      cases hres : resolveRef env su m.2 with
      | none =>
        have hpm : processMatch env su dir st m = st := by
          simp [processMatch, hnm, hres]
        have hok : downloadOk env su m.2 = false := by
          simp [downloadOk, hres]
        rw [hpm]
        exact hnoadd st rfl rfl (fun dl hdl => Or.inl hdl) hok
      | some dl0 =>
        cases hfetch : env.fetch dl0 with
        | none =>
          have hpm : processMatch env su dir st m =
              { st with fetched := st.fetched ++ [dl0] } := by
            simp [processMatch, hnm, hres, hfetch]
          have hok : downloadOk env su m.2 = false := by
            simp [downloadOk, hres, hfetch]
          rw [hpm]
          refine hnoadd _ rfl rfl ?_ hok
          intro dl hdl
          rcases List.mem_append.1 hdl with h1 | h1
          · exact Or.inl h1
          · rw [List.mem_singleton] at h1
            exact Or.inr (h1 ▸ hres)
        | some resp =>
          cases hext : extOf env m.2 resp.contentType with
          | none =>
            have hpm : processMatch env su dir st m =
                { st with fetched := st.fetched ++ [dl0] } := by
              simp [processMatch, hnm, hres, hfetch, hext]
            have hok : downloadOk env su m.2 = false := by
              simp [downloadOk, hres, hfetch, hext]
            rw [hpm]
            refine hnoadd _ rfl rfl ?_ hok
            intro dl hdl
            rcases List.mem_append.1 hdl with h1 | h1
            · exact Or.inl h1
            · rw [List.mem_singleton] at h1
              exact Or.inr (h1 ▸ hres)
          | some ext =>
            have hok : downloadOk env su m.2 = true := by
              simp [downloadOk, hres, hfetch, hext]
            have hseen1 : (processMatch env su dir st m).seen =
                st.seen ++ [m.2] := by
              simp [processMatch, hnm, hres, hfetch, hext]
            have hwr1 : (processMatch env su dir st m).writes.map Prod.snd =
                st.writes.map Prod.snd ++ [m.2] := by
              simp [processMatch, hnm, hres, hfetch, hext]
            have hfet1 : (processMatch env su dir st m).fetched =
                st.fetched ++ [dl0] := by
              simp [processMatch, hnm, hres, hfetch, hext]
            obtain ⟨ihs, ihw, ihf⟩ := ih (processMatch env su dir st m)
            have hfilter : (m.2 :: rest.map Prod.snd).filter
                (downloadOk env su) =
                m.2 :: (rest.map Prod.snd).filter (downloadOk env su) := by
              simp [List.filter_cons, hok]
            have hd : dedupFirst st.seen
                (m.2 :: (rest.map Prod.snd).filter (downloadOk env su)) =
                m.2 :: dedupFirst (st.seen ++ [m.2])
                  ((rest.map Prod.snd).filter (downloadOk env su)) := by
              simp [dedupFirst, hnm]
            rw [hfilter, hd]
            refine ⟨?_, ?_, ?_⟩
            · rw [ihs, hseen1, List.append_assoc, List.singleton_append]
            · rw [ihw, hwr1, hseen1, List.append_assoc, List.singleton_append]
            · intro dl hdl
              rcases ihf dl hdl with h1 | ⟨m2, hm2, h2⟩
              · rw [hfet1] at h1
                rcases List.mem_append.1 h1 with h3 | h3
                · exact Or.inl h3
                · rw [List.mem_singleton] at h3
                  exact Or.inr ⟨m, List.mem_cons_self _ _, h3 ▸ hres⟩
              · exact Or.inr ⟨m2, List.mem_cons_of_mem _ hm2, h2⟩

theorem processFold_content_of_fail (env : CollectorEnv)
    (su : Option (List Char)) (dir : List Char) :
    ∀ (ms : List (List Char × List Char)) (st : PassState),
      (∀ m ∈ ms, downloadOk env su m.2 = false) →
      (ms.foldl (processMatch env su dir) st).content = st.content := by
  intro ms
  induction ms with
  | nil =>
    intro st _
    rfl
  | cons m rest ih =>
    intro st hall
    rw [List.foldl_cons]
    have hcont : (processMatch env su dir st m).content = st.content := by
      have hm := hall m (List.mem_cons_self _ _)
      cases hc : st.seen.contains m.2 with
      | true =>
        have hmem : m.2 ∈ st.seen := by simpa using hc
        simp [processMatch, hmem]
      | false =>
        have hnm : m.2 ∉ st.seen := by simpa using hc
        cases hres : resolveRef env su m.2 with
        | none => simp [processMatch, hnm, hres]
        | some dl0 =>
          cases hfetch : env.fetch dl0 with
          | none => simp [processMatch, hnm, hres, hfetch]
          | some resp =>
            cases hext : extOf env m.2 resp.contentType with
            | none => simp [processMatch, hnm, hres, hfetch, hext]
            | some ext =>
              exfalso
              simp [downloadOk, hres, hfetch, hext] at hm
    rw [ih (processMatch env su dir st m)
      (fun m2 hm2 => hall m2 (List.mem_cons_of_mem _ hm2)), hcont]

/-- One successful loop iteration on a well-formed document: the planned
local path is a nonempty plain word, the text rewrite is exactly the
reference rewrite `mapUrl` on the document, and the reference text joins
the dedup set. -/
theorem processMatch_success (env : CollectorEnv) (su : Option (List Char))
    (dir : List Char) (st : PassState) (m : List Char × List Char)
    (dcur : List Seg) (dl0 : List Char) (resp : ResResp) (ext : List Char)
    (hdir : ∀ c ∈ dir, urlCharB c = true)
    (hsf : ∀ s, ∀ c ∈ env.safeFileName s, urlCharB c = true)
    (hmd5 : ∀ s, ∀ c ∈ env.md5hex8 s, urlCharB c = true)
    (hnm : m.2 ∉ st.seen) (hres : resolveRef env su m.2 = some dl0)
    (hfetch : env.fetch dl0 = some resp)
    (hext : extOf env m.2 resp.contentType = some ext)
    (hcontent : st.content = renderDoc dcur) (hwf : wfDoc dcur)
    (hU : ∀ c ∈ m.2, c ≠ '(' ∧ c ≠ ')') :
    ∃ P, plannedLocalPath env su dir m.1 m.2 = some P ∧
      P ≠ [] ∧ (∀ c ∈ P, urlCharB c = true) ∧
      (processMatch env su dir st m).content = renderDoc (mapUrl m.2 P dcur) ∧
      (processMatch env su dir st m).seen = st.seen ++ [m.2] := by
  refine ⟨dir ++ '/' :: (env.safeFileName (jsOrList m.1 ("image".data)) ++
    '-' :: env.md5hex8 m.2 ++ ext), ?_, ?_, ?_, ?_, ?_⟩
  · simp [plannedLocalPath, hres, hfetch, hext]
  · simp
  · intro c hcm
    rcases List.mem_append.1 hcm with h1 | h1
    · exact hdir c h1
    rcases List.mem_cons.1 h1 with rfl | h1
    · decide
    rcases List.mem_append.1 h1 with h1 | h1
    · rcases List.mem_append.1 h1 with h2 | h2
      · exact hsf _ c h2
      · rcases List.mem_cons.1 h2 with rfl | h2
        · decide
        · exact hmd5 _ c h2
    · exact extOf_chars env m.2 resp.contentType ext hext c h1
  · have hpm : (processMatch env su dir st m).content =
        replaceAll '(' (m.2 ++ [')'])
          (('(' :: (dir ++ '/' ::
            (env.safeFileName (jsOrList m.1 ("image".data)) ++
              '-' :: env.md5hex8 m.2 ++ ext))) ++ [')']) st.content := by
      simp [processMatch, hnm, hres, hfetch, hext]
    rw [hpm, hcontent]
    exact replaceAll_render m.2 _ hU dcur hwf
  · simp [processMatch, hnm, hres, hfetch, hext]

/-- The match loop on a text that renders a well-formed document: the
final text renders a well-formed document again; references whose url
fails to download survive unrewritten; a url absent from the document
and from every planned path stays absent; and under the round-trip
hypotheses (all downloads succeed, fresh dedup set, distinct reference
texts, planned paths collide with no reference text) every processed
reference text is eliminated from the document. -/
theorem processFold_render (env : CollectorEnv) (su : Option (List Char))
    (dir : List Char)
    (hdir : ∀ c ∈ dir, urlCharB c = true)
    (hsf : ∀ s, ∀ c ∈ env.safeFileName s, urlCharB c = true)
    (hmd5 : ∀ s, ∀ c ∈ env.md5hex8 s, urlCharB c = true) :
    ∀ (ms : List (List Char × List Char)) (st : PassState) (dcur : List Seg),
      st.content = renderDoc dcur → wfDoc dcur →
      (∀ m ∈ ms, ∀ c ∈ m.2, urlCharB c = true) →
      ∃ dfin : List Seg,
        (ms.foldl (processMatch env su dir) st).content = renderDoc dfin ∧
        wfDoc dfin ∧
        (∀ a u, Seg.img a u ∈ dcur → downloadOk env su u = false →
          Seg.img a u ∈ dfin) ∧
        (∀ u0, (∀ a u, Seg.img a u ∈ dcur → u ≠ u0) →
          (∀ m ∈ ms, plannedLocalPath env su dir m.1 m.2 ≠ some u0) →
          ∀ a u, Seg.img a u ∈ dfin → u ≠ u0) ∧
        ((∀ m ∈ ms, downloadOk env su m.2 = true) →
          (∀ m ∈ ms, m.2 ∉ st.seen) →
          (ms.map Prod.snd).Nodup →
          (∀ m ∈ ms, ∀ m2 ∈ ms,
            plannedLocalPath env su dir m2.1 m2.2 ≠ some m.2) →
          ∀ m ∈ ms, ∀ a u, Seg.img a u ∈ dfin → u ≠ m.2) := by
  intro ms
  induction ms with
  | nil =>
    intro st dcur hcontent hwf _
    refine ⟨dcur, hcontent, hwf, fun a u hm _ => hm,
      fun u0 habs _ => habs, ?_⟩
    intro _ _ _ _ m hm
    simp at hm
  | cons m rest ih =>
    intro st dcur hcontent hwf hchars
    rw [List.foldl_cons]
    have hchrest : ∀ m2 ∈ rest, ∀ c ∈ m2.2, urlCharB c = true :=
      fun m2 hm2 => hchars m2 (List.mem_cons_of_mem _ hm2)
    cases hc : st.seen.contains m.2 with
    | true =>
      have hmem : m.2 ∈ st.seen := by simpa using hc
      have hpm : processMatch env su dir st m = st := by
        simp [processMatch, hmem]
      rw [hpm]
      obtain ⟨dfin, h1, h2, h3, h4, h5⟩ := ih st dcur hcontent hwf hchrest
      refine ⟨dfin, h1, h2, h3, ?_, ?_⟩
      · intro u0 habs hpaths
        exact h4 u0 habs (fun m2 hm2 => hpaths m2 (List.mem_cons_of_mem _ hm2))
      · intro hok hnotseen hnodup hcoll m2 hm2 a u hmemf
        exact absurd hmem (hnotseen m (List.mem_cons_self _ _))
    | false =>
      have hnm : m.2 ∉ st.seen := by simpa using hc
      cases hres : resolveRef env su m.2 with
      | none =>
        have hpm : processMatch env su dir st m = st := by
          simp [processMatch, hnm, hres]
        have hok0 : downloadOk env su m.2 = false := by
          simp [downloadOk, hres]
        rw [hpm]
        obtain ⟨dfin, h1, h2, h3, h4, h5⟩ := ih st dcur hcontent hwf hchrest
        refine ⟨dfin, h1, h2, h3, ?_, ?_⟩
        · intro u0 habs hpaths
          exact h4 u0 habs
            (fun m2 hm2 => hpaths m2 (List.mem_cons_of_mem _ hm2))
        · intro hok hnotseen hnodup hcoll m2 hm2 a u hmemf
          have hbad := hok m (List.mem_cons_self _ _)
          rw [hok0] at hbad
          exact absurd hbad Bool.false_ne_true
      | some dl0 =>
        cases hfetch : env.fetch dl0 with
        | none =>
          have hpm : processMatch env su dir st m =
              { st with fetched := st.fetched ++ [dl0] } := by
            simp [processMatch, hnm, hres, hfetch]
          have hok0 : downloadOk env su m.2 = false := by
            simp [downloadOk, hres, hfetch]
          rw [hpm]
          obtain ⟨dfin, h1, h2, h3, h4, h5⟩ :=
            ih { st with fetched := st.fetched ++ [dl0] } dcur hcontent hwf
              hchrest
          refine ⟨dfin, h1, h2, h3, ?_, ?_⟩
          · intro u0 habs hpaths
            exact h4 u0 habs
              (fun m2 hm2 => hpaths m2 (List.mem_cons_of_mem _ hm2))
          · intro hok hnotseen hnodup hcoll m2 hm2 a u hmemf
            have hbad := hok m (List.mem_cons_self _ _)
            rw [hok0] at hbad
            exact absurd hbad Bool.false_ne_true
        | some resp =>
          cases hext : extOf env m.2 resp.contentType with
          | none =>
            have hpm : processMatch env su dir st m =
                { st with fetched := st.fetched ++ [dl0] } := by
              simp [processMatch, hnm, hres, hfetch, hext]
            have hok0 : downloadOk env su m.2 = false := by
              simp [downloadOk, hres, hfetch, hext]
            rw [hpm]
            obtain ⟨dfin, h1, h2, h3, h4, h5⟩ :=
              ih { st with fetched := st.fetched ++ [dl0] } dcur hcontent hwf
                hchrest
            refine ⟨dfin, h1, h2, h3, ?_, ?_⟩
            · intro u0 habs hpaths
              exact h4 u0 habs
                (fun m2 hm2 => hpaths m2 (List.mem_cons_of_mem _ hm2))
            · intro hok hnotseen hnodup hcoll m2 hm2 a u hmemf
              have hbad := hok m (List.mem_cons_self _ _)
              rw [hok0] at hbad
              exact absurd hbad Bool.false_ne_true
          | some ext =>
            have hok1 : downloadOk env su m.2 = true := by
              simp [downloadOk, hres, hfetch, hext]
            have hU : ∀ c ∈ m.2, c ≠ '(' ∧ c ≠ ')' := by
              intro c hcm
              have h := urlCharB_plain c
                (hchars m (List.mem_cons_self _ _) c hcm)
              have hf := plainChar_facts c h.1
              exact ⟨hf.2.2.2.1, hf.2.2.2.2.1⟩
            obtain ⟨P, hplanned, hPne, hPchars, hpmc, hseen1⟩ :=
              processMatch_success env su dir st m dcur dl0 resp ext
                hdir hsf hmd5 hnm hres hfetch hext hcontent hwf hU
            have hwf1 : wfDoc (mapUrl m.2 P dcur) :=
              mapUrl_wf _ _ _ hwf hPne hPchars
            obtain ⟨dfin, h1, h2, h3, h4, h5⟩ :=
              ih (processMatch env su dir st m) (mapUrl m.2 P dcur) hpmc hwf1
                hchrest
            refine ⟨dfin, h1, h2, ?_, ?_, ?_⟩
            · intro a u hmem0 hfail
              have hne : u ≠ m.2 := by
                intro h
                rw [h, hok1] at hfail
                exact Bool.noConfusion hfail
              exact h3 a u (mapUrl_mem_of _ _ _ _ _ hmem0 hne) hfail
            · intro u0 habs hpaths
              have hPneu0 : P ≠ u0 := by
                intro h
                exact hpaths m (List.mem_cons_self _ _) (by rw [hplanned, h])
              refine h4 u0 ?_
                (fun m2 hm2 => hpaths m2 (List.mem_cons_of_mem _ hm2))
              intro a u hmem1
              rcases mapUrl_mem_inv _ _ _ _ _ hmem1 with ⟨u2, hu2, hcase⟩
              rcases hcase with ⟨_, rfl⟩ | ⟨_, rfl⟩
              · exact hPneu0
              · exact habs a u hu2
            · intro hok hnotseen hnodup hcoll
              rw [List.map_cons] at hnodup
              intro m2 hm2
              rcases List.mem_cons.1 hm2 with rfl | hm2r
              · refine h4 m2.2 ?_ ?_
                · intro a u hmem1
                  rcases mapUrl_mem_inv _ _ _ _ _ hmem1 with ⟨u2, hu2, hcase⟩
                  rcases hcase with ⟨_, rfl⟩ | ⟨hne2, rfl⟩
                  · intro h
                    exact hcoll m2 (List.mem_cons_self _ _) m2
                      (List.mem_cons_self _ _) (by rw [hplanned, h])
                  · exact hne2
                · intro m3 hm3 h
                  exact hcoll m2 (List.mem_cons_self _ _) m3
                    (List.mem_cons_of_mem _ hm3) h
              · refine h5
                  (fun m3 hm3 => hok m3 (List.mem_cons_of_mem _ hm3)) ?_
                  (List.nodup_cons.1 hnodup).2
                  (fun m3 hm3 m4 hm4 => hcoll m3 (List.mem_cons_of_mem _ hm3)
                    m4 (List.mem_cons_of_mem _ hm4)) m2 hm2r
                intro m3 hm3
                rw [hseen1]
                intro hmem3
                rcases List.mem_append.1 hmem3 with h6 | h6
                · exact hnotseen m3 (List.mem_cons_of_mem _ hm3) h6
                · rw [List.mem_singleton] at h6
                  have hmm : m.2 ∈ rest.map Prod.snd :=
                    h6 ▸ List.mem_map_of_mem Prod.snd hm3
                  exact (List.nodup_cons.1 hnodup).1 hmm

instance wfSeg.decidable : ∀ s : Seg, Decidable (wfSeg s)
  | .text t => inferInstanceAs (Decidable (∀ c ∈ t, plainChar c = true))
  | .img alt url => inferInstanceAs (Decidable ((∀ c ∈ alt, plainChar c = true) ∧
      url ≠ [] ∧ ∀ c ∈ url, plainChar c = true ∧ isSpaceChar c = false))

instance wfDoc.decidable (d : List Seg) : Decidable (wfDoc d) :=
  inferInstanceAs (Decidable (∀ s ∈ d, wfSeg s))

theorem refs_chars (d : List Seg) (hwf : wfDoc d) :
    ∀ m ∈ refs d, ∀ c ∈ m.2, urlCharB c = true := by
  intro m hm c hc
  have hseg : Seg.img m.1 m.2 ∈ d := (refs_mem m.1 m.2 d).1 hm
  obtain ⟨_, _, hurl⟩ := hwf _ hseg
  have h := hurl c hc
  simp [urlCharB, h.1, h.2]

theorem refs_paren (d : List Seg) (hwf : wfDoc d) :
    ∀ m ∈ refs d, ∀ c ∈ m.2, c ≠ '(' ∧ c ≠ ')' := by
  intro m hm c hc
  have h := urlCharB_plain c (refs_chars d hwf m hm c hc)
  have hf := plainChar_facts c h.1
  exact ⟨hf.2.2.2.1, hf.2.2.2.2.1⟩

/-! ### C5: the localization round trip -/

/-- Counterexample environment for C5: fetches always succeed as PNGs;
the hash helper distinguishes the original reference text from the
rewritten local path, as a real md5 would. -/
def exEnvC5 : CollectorEnv where
  resolve := fun rel base => some (base ++ '/' :: rel)
  fetch := fun _ => some ⟨"image/png".data⟩
  absPathname := fun _ => none
  md5hex8 := fun s => if s = "http://x/i.png".data then "h1".data else "h2".data
  safeFileName := fun s => s

/-- Counterexample document for C5: one image reference plus the same
URL appearing bare in the running text. -/
def exDocC5 : List Seg :=
  [Seg.img ("a".data) ("http://x/i.png".data),
   Seg.text (" see http://x/i.png".data)]

/-- Counterexample to C5 as stated: with every fetch succeeding, the
single reference is downloaded (one file), yet the rewritten document
still contains an occurrence of the original URL (the bare one in the
text), and running localization again on the rewritten document changes
it once more (the reference is re-downloaded under its rewritten
relative path and renamed), so the pass is not idempotent. -/
theorem downloadResources_counterexample :
    (downloadResources exEnvC5 (renderDoc exDocC5) (some ("http://x".data))
      ("a-assets".data)).writes.length = 1 ∧
    containsSeq ("http://x/i.png".data)
      (downloadResources exEnvC5 (renderDoc exDocC5) (some ("http://x".data))
        ("a-assets".data)).content = true ∧
    (downloadResources exEnvC5
        (downloadResources exEnvC5 (renderDoc exDocC5)
          (some ("http://x".data)) ("a-assets".data)).content
        (some ("http://x".data)) ("a-assets".data)).content ≠
      (downloadResources exEnvC5 (renderDoc exDocC5) (some ("http://x".data))
        ("a-assets".data)).content := by
  decide

/-- C5 (amended): on a well-formed document whose reference texts are
distinct, with every download succeeding and no planned local path
colliding with a reference text, localization downloads exactly the N
referenced urls (one file per distinct reference, in order), and the
rewritten document contains zero parenthesized occurrences `(url)` of
any original reference url — bare occurrences in plain text survive, as
the counterexample shows. Re-running is a no-op only in the no-download
case: any pass in which every fetch fails leaves the text unchanged. -/
theorem downloadResources_round_trip
    (env : CollectorEnv) (su : Option (List Char)) (dir : List Char)
    (d : List Seg) (hwf : wfDoc d)
    (hdir : ∀ c ∈ dir, urlCharB c = true)
    (hsf : ∀ s, ∀ c ∈ env.safeFileName s, urlCharB c = true)
    (hmd5 : ∀ s, ∀ c ∈ env.md5hex8 s, urlCharB c = true)
    (hok : ∀ m ∈ refs d, downloadOk env su m.2 = true)
    (hnodup : ((refs d).map Prod.snd).Nodup)
    (hcoll : ∀ m ∈ refs d, ∀ m2 ∈ refs d,
      plannedLocalPath env su dir m2.1 m2.2 ≠ some m.2) :
    ((downloadResources env (renderDoc d) su dir).writes.map Prod.snd =
      (refs d).map Prod.snd) ∧
    (∀ m ∈ refs d,
      containsSeq ('(' :: (m.2 ++ [')']))
        (downloadResources env (renderDoc d) su dir).content = false) ∧
    (∀ (env2 : CollectorEnv) (c : List Char),
      (∀ u, env2.fetch u = none) →
      (downloadResources env2 c su dir).content = c) := by
  have hscan : scanImgs (renderDoc d) = refs d := scanImgs_render d hwf
  have hDR : downloadResources env (renderDoc d) su dir =
      (refs d).foldl (processMatch env su dir)
        ⟨renderDoc d, [], [], []⟩ := by
    unfold downloadResources
    rw [hscan]
  rw [hDR]
  refine ⟨?_, ?_, ?_⟩
  · obtain ⟨_, hw, _⟩ := processFold_writes env su dir (refs d)
      ⟨renderDoc d, [], [], []⟩
    rw [hw]
    have hfilter : ((refs d).map Prod.snd).filter (downloadOk env su) =
        (refs d).map Prod.snd := by
      apply List.filter_eq_self.2
      intro u hu
      rcases List.mem_map.1 hu with ⟨m, hm, rfl⟩
      exact hok m hm
    rw [hfilter, dedupFirst_eq_self _ _ hnodup (fun u _ hbad => by simp at hbad)]
    simp
  · obtain ⟨dfin, h1, h2, h3, h4, h5⟩ := processFold_render env su dir
      hdir hsf hmd5 (refs d) ⟨renderDoc d, [], [], []⟩ d rfl hwf
      (refs_chars d hwf)
    intro m hm
    rw [h1]
    exact not_containsSeq_render m.2 (refs_paren d hwf m hm) dfin h2
      (fun a u hu => h5 hok (fun m2 _ hbad => by simp at hbad) hnodup hcoll
        m hm a u hu)
  · intro env2 c hfetchnone
    unfold downloadResources
    apply processFold_content_of_fail
    intro m _
    unfold downloadOk
    cases hres : resolveRef env2 su m.2 with
    | none => rfl
    | some dl => simp [hfetchnone dl]

/-- Round-trip witness environment: constant helpers with plain
outputs. -/
def exEnvRT : CollectorEnv where
  resolve := fun _ _ => none
  fetch := fun _ => some ⟨"image/png".data⟩
  absPathname := fun _ => none
  md5hex8 := fun _ => "12345678".data
  safeFileName := fun _ => "img".data

/-- Round-trip witness document: one absolute image reference and plain
text without the url. -/
def exDocRT : List Seg :=
  [Seg.img ("a".data) ("http://x/i.png".data), Seg.text (" hello".data)]

theorem downloadResources_round_trip_witness :
    wfDoc exDocRT ∧
    (∀ c ∈ ("assets".data), urlCharB c = true) ∧
    (∀ s, ∀ c ∈ exEnvRT.safeFileName s, urlCharB c = true) ∧
    (∀ s, ∀ c ∈ exEnvRT.md5hex8 s, urlCharB c = true) ∧
    (∀ m ∈ refs exDocRT, downloadOk exEnvRT none m.2 = true) ∧
    ((refs exDocRT).map Prod.snd).Nodup ∧
    (∀ m ∈ refs exDocRT, ∀ m2 ∈ refs exDocRT,
      plannedLocalPath exEnvRT none ("assets".data) m2.1 m2.2 ≠ some m.2) ∧
    (((downloadResources exEnvRT (renderDoc exDocRT) none
        ("assets".data)).writes.map Prod.snd =
          (refs exDocRT).map Prod.snd) ∧
      (∀ m ∈ refs exDocRT,
        containsSeq ('(' :: (m.2 ++ [')']))
          (downloadResources exEnvRT (renderDoc exDocRT) none
            ("assets".data)).content = false) ∧
      (∀ (env2 : CollectorEnv) (c : List Char),
        (∀ u, env2.fetch u = none) →
        (downloadResources env2 c none ("assets".data)).content = c)) :=
  ⟨by decide, by decide,
   fun _ => by
     show ∀ c ∈ ("img".data), urlCharB c = true
     decide,
   fun _ => by
     show ∀ c ∈ ("12345678".data), urlCharB c = true
     decide,
   by decide, by decide, by decide,
   downloadResources_round_trip exEnvRT none ("assets".data) exDocRT
     (by decide) (by decide)
     (fun _ => by
       show ∀ c ∈ ("img".data), urlCharB c = true
       decide)
     (fun _ => by
       show ∀ c ∈ ("12345678".data), urlCharB c = true
       decide)
     (by decide) (by decide) (by decide)⟩

/-! ### C6: dedup, relative-reference skipping and failure isolation -/

/-- Counterexample environment for C6: the resolver normalizes a leading
`./`, so two distinct reference texts resolve to the same absolute URL;
fetches succeed as PNGs. -/
def exEnvC6 : CollectorEnv where
  resolve := fun rel base => some (base ++ '/' ::
    (if ("./".data).isPrefixOf rel then rel.drop 2 else rel))
  fetch := fun _ => some ⟨"image/png".data⟩
  absPathname := fun _ => none
  md5hex8 := fun _ => "ffff0000".data
  safeFileName := fun s => s

/-- Counterexample document for C6: two references whose texts differ
(`i.png` and `./i.png`) but resolve to the same URL. -/
def exDocC6 : List Seg :=
  [Seg.img ("a".data) ("i.png".data), Seg.text (" and ".data),
   Seg.img ("b".data) ("./i.png".data)]

/-- Counterexample to C6 as stated: the dedup set keys on the literal
reference text, not the resolved URL, so the two references of
`exDocC6` — distinct texts, same resolution — make the pass fetch the
same resolved URL twice. -/
theorem downloadResources_fetch_twice_counterexample :
    (downloadResources exEnvC6 (renderDoc exDocC6) (some ("http://x".data))
      ("assets".data)).fetched =
      ["http://x/i.png".data, "http://x/i.png".data] := by
  decide

/-- C6 (amended): within one pass over a well-formed document, (a) the
downloads are exactly the first occurrences of the successfully
downloading reference TEXTS — dedup is by literal reference text, not by
resolved URL, which the counterexample shows can repeat; (b) with no
recorded source URL only absolute `http*` references are ever fetched
(relative ones are skipped, not guessed); (c) a reference whose download
fails anywhere (resolution, fetch, or extension) is left unrewritten —
its `(url)` still occurs in the output — while the rest of the pass
still runs, per (a). -/
theorem downloadResources_isolation
    (env : CollectorEnv) (su : Option (List Char)) (dir : List Char)
    (d : List Seg) (hwf : wfDoc d)
    (hdir : ∀ c ∈ dir, urlCharB c = true)
    (hsf : ∀ s, ∀ c ∈ env.safeFileName s, urlCharB c = true)
    (hmd5 : ∀ s, ∀ c ∈ env.md5hex8 s, urlCharB c = true) :
    ((downloadResources env (renderDoc d) su dir).writes.map Prod.snd =
      dedupFirst [] (((refs d).map Prod.snd).filter (downloadOk env su))) ∧
    (su = none →
      ∀ dl ∈ (downloadResources env (renderDoc d) su dir).fetched,
        ("http".data).isPrefixOf dl = true) ∧
    (∀ a u, Seg.img a u ∈ d → downloadOk env su u = false →
      containsSeq ('(' :: (u ++ [')']))
        (downloadResources env (renderDoc d) su dir).content = true) := by
  have hscan : scanImgs (renderDoc d) = refs d := scanImgs_render d hwf
  have hDR : downloadResources env (renderDoc d) su dir =
      (refs d).foldl (processMatch env su dir)
        ⟨renderDoc d, [], [], []⟩ := by
    unfold downloadResources
    rw [hscan]
  rw [hDR]
  obtain ⟨_, hw, hf⟩ := processFold_writes env su dir (refs d)
    ⟨renderDoc d, [], [], []⟩
  refine ⟨?_, ?_, ?_⟩
  · rw [hw]
    simp
  · intro hsu dl hdl
    subst hsu
    rcases hf dl hdl with h1 | ⟨m, _, h2⟩
    · simp at h1
    · unfold resolveRef at h2
      by_cases hp : ("http".data).isPrefixOf m.2 = true
      · rw [if_pos hp] at h2
        injection h2 with h2
        rw [← h2]
        exact hp
      · rw [if_neg hp] at h2
        simp at h2
  · intro a u hmem hfail
    obtain ⟨dfin, h1, h2, h3, _, _⟩ := processFold_render env su dir
      hdir hsf hmd5 (refs d) ⟨renderDoc d, [], [], []⟩ d rfl hwf
      (refs_chars d hwf)
    rw [h1]
    exact containsSeq_img_present a u dfin (h3 a u hmem hfail)

/-- Isolation witness environment: one URL downloads, the other fails to
fetch. -/
def exEnvC6w : CollectorEnv where
  resolve := fun _ _ => none
  fetch := fun u =>
    if u = ("http://x/good.png".data) then some ⟨"image/png".data⟩ else none
  absPathname := fun _ => none
  md5hex8 := fun _ => "00aa11bb".data
  safeFileName := fun _ => "f".data

/-- Isolation witness document: a failing reference followed by a
succeeding one. -/
def exDocC6w : List Seg :=
  [Seg.img ("a".data) ("http://x/bad.png".data), Seg.text (" t ".data),
   Seg.img ("b".data) ("http://x/good.png".data)]

theorem downloadResources_isolation_witness :
    wfDoc exDocC6w ∧
    (∀ c ∈ ("assets".data), urlCharB c = true) ∧
    (∀ s, ∀ c ∈ exEnvC6w.safeFileName s, urlCharB c = true) ∧
    (∀ s, ∀ c ∈ exEnvC6w.md5hex8 s, urlCharB c = true) ∧
    (((downloadResources exEnvC6w (renderDoc exDocC6w) none
        ("assets".data)).writes.map Prod.snd =
      dedupFirst []
        (((refs exDocC6w).map Prod.snd).filter (downloadOk exEnvC6w none))) ∧
    (none = (none : Option (List Char)) →
      ∀ dl ∈ (downloadResources exEnvC6w (renderDoc exDocC6w) none
        ("assets".data)).fetched,
        ("http".data).isPrefixOf dl = true) ∧
    (∀ a u, Seg.img a u ∈ exDocC6w → downloadOk exEnvC6w none u = false →
      containsSeq ('(' :: (u ++ [')']))
        (downloadResources exEnvC6w (renderDoc exDocC6w) none
          ("assets".data)).content = true)) :=
  ⟨by decide, by decide,
   fun _ => by
     show ∀ c ∈ ("f".data), urlCharB c = true
     decide,
   fun _ => by
     show ∀ c ∈ ("00aa11bb".data), urlCharB c = true
     decide,
   downloadResources_isolation exEnvC6w none ("assets".data) exDocC6w
     (by decide) (by decide)
     (fun _ => by
       show ∀ c ∈ ("f".data), urlCharB c = true
       decide)
     (fun _ => by
       show ∀ c ∈ ("00aa11bb".data), urlCharB c = true
       decide)⟩

end OpenBook
